import Mathlib

/-!
Verification of the server wakeup orchestrator (src/servers.rs).

The Rust module is shallowly embedded: pure functions become Lean
functions; the recursive depth-first search receives an explicit fuel
argument (an artifact of the embedding; sufficiency of the fuel supplied
by `determine_wakeup_order` is proved below, so `none` never escapes);
`HashSet`/`HashMap` values are modelled by lists with the same
membership/lookup semantics (insertion only ever happens under a
non-membership guard in the source, so consing is faithful, and `HashMap`
collection lets a later duplicate key overwrite an earlier one, so lookup
returns the last matching entry); compiled regular expressions are
modelled by their match function; the external world reached by the
probes (HTTP responses, spawned processes, wall-clock time) is passed in
as explicit data.
-/

namespace Wakeup

/-- Model of a compiled regular expression: at this level of abstraction a
regex is characterised by its match function on strings. -/
def Pattern : Type := String → Bool

/-- The error enumeration `ServerConfigError` from the source. -/
inductive ServerConfigError : Type where
  | ParseError (msg : String)
  | UndefinedDependency (name : String)
  | CircularDependency (name : String)
  | BadHealthCheckDefinition (msg : String)
deriving DecidableEq, Repr

/-- `CheckStatus` from the source. -/
inductive CheckStatus : Type where
  | Waiting
  | Running
  | TimedOut
  | Ok
deriving DecidableEq, Repr

/-- `ServerStatus` from the source. -/
inductive ServerStatus : Type where
  | Waiting
  | WOLSent
  | Ok
  | TimedOut
deriving DecidableEq, Repr

/-- `HealthCheckMethod` from the source.  `u16` status codes and ports
become `Nat`, the `i32` exit code becomes `Int` (no arithmetic is ever
performed on them). -/
inductive HealthCheckMethod : Type where
  | Http (url : String) (status : Option Nat) (regex : Option Pattern)
  | Port (ip : String) (port : Nat)
  | Shell (command : String) (status : Option Int) (regex : Option Pattern)

/-- `HealthCheck` from the source; the two `Duration` fields are abstract
time units. -/
structure HealthCheck where
  retry : Nat
  timeout : Nat
  method : HealthCheckMethod
  status : CheckStatus

/-- `Server` from the source. -/
structure Server where
  name : String
  mac : String
  interface : String
  vlan : Option Nat
  depends : List String
  check : List HealthCheck
  status : ServerStatus

/-- `map_server_names`: builds the name-to-server map.  The Rust code
collects `(s.name, s)` pairs into a `HashMap`, so a later server with a
duplicate name overwrites an earlier one; lookup therefore returns the
last server in the list bearing the name. -/
def map_server_names (servers : List Server) : String → Option Server :=
  fun n => servers.reverse.find? (fun s => s.name == n)

/-- The three mutable accumulators threaded through `depth_first_search`
(`visited`, `visiting`, `sorted` in the source). -/
structure DfsState where
  visited : List String
  visiting : List String
  sorted : List String

/-- The `for dep in &server.depends` loop body of `depth_first_search`,
factored out so that the recursion is structural in the fuel.  `dfs_rec`
is the recursive call at the smaller fuel. -/
def dfs_deps (lookup : String → Option Server)
    (dfs_rec : Server → DfsState → Option (Except ServerConfigError DfsState)) :
    List String → DfsState → Option (Except ServerConfigError DfsState)
  | [], st => some (Except.ok st)
  | dep :: rest, st =>
    match lookup dep with
    | none => some (Except.error (ServerConfigError.UndefinedDependency dep))
    | some dep_server =>
      match dfs_rec dep_server st with
      | none => none
      | some (Except.error e) => some (Except.error e)
      | some (Except.ok st') => dfs_deps lookup dfs_rec rest st'

/-- `depth_first_search` from the source.  The `Nat` argument is fuel
bounding recursion depth (the Rust recursion is bounded by the number of
distinct names, proved below); `none` means the fuel ran out and is never
produced for the fuel supplied by `determine_wakeup_order`. -/
def depth_first_search (lookup : String → Option Server) :
    Nat → Server → DfsState → Option (Except ServerConfigError DfsState)
  | 0, _, _ => none
  | fuel + 1, server, st =>
    if server.name ∈ st.visiting then
      some (Except.error (ServerConfigError.CircularDependency server.name))
    else if server.name ∈ st.visited then
      some (Except.ok st)
    else
      match dfs_deps lookup (fun s st₁ => depth_first_search lookup fuel s st₁)
          server.depends
          { st with visiting := server.name :: st.visiting } with
      | none => none
      | some (Except.error e) => some (Except.error e)
      | some (Except.ok st') =>
        some (Except.ok
          { visited := server.name :: st'.visited,
            visiting := st'.visiting.erase server.name,
            sorted := st'.sorted ++ [server.name] })

/-- The `for server in servers` seeding loop of `determine_wakeup_order`. -/
def wakeup_seed_loop (lookup : String → Option Server) (fuel : Nat) :
    List Server → DfsState → Option (Except ServerConfigError DfsState)
  | [], st => some (Except.ok st)
  | server :: rest, st =>
    if server.name ∈ st.visited then wakeup_seed_loop lookup fuel rest st
    else
      match depth_first_search lookup fuel server st with
      | none => none
      | some (Except.error e) => some (Except.error e)
      | some (Except.ok st') => wakeup_seed_loop lookup fuel rest st'

/-- `determine_wakeup_order` from the source.  The final mapping of
sorted names back to servers uses `unwrap` in Rust; it is modelled with
`filterMap`, and the lemmas below show every sorted name is in the map,
so nothing is dropped.  Fuel `servers.length + 1` is proved sufficient. -/
def determine_wakeup_order (servers : List Server) :
    Option (Except ServerConfigError (List Server)) :=
  let lookup := map_server_names servers
  match wakeup_seed_loop lookup (servers.length + 1) servers ⟨[], [], []⟩ with
  | none => none
  | some (Except.error e) => some (Except.error e)
  | some (Except.ok st) => some (Except.ok (st.sorted.filterMap lookup))

/-! ## IP literal parsing

`validate_health_check` calls `ip.parse::<IpAddr>()` from the Rust
standard library (external to this repository).  The parser is modelled
from its documented grammar: an IPv4 literal is four dot-separated
decimal octets, each at most 255 with no leading zeros; an IPv6 literal
is colon-separated groups of at most four hex digits, at most one `::`
gap, eight groups in total (a trailing embedded IPv4 literal counting as
two). -/

/-- Split a character list on a separator, keeping empty segments. -/
def split_on_char (sep : Char) : List Char → List (List Char)
  | [] => [[]]
  | c :: rest =>
    let r := split_on_char sep rest
    if c = sep then [] :: r
    else
      match r with
      | g :: gs => (c :: g) :: gs
      | [] => [[c]]

/-- Decimal value of a digit group. -/
def ipv4_group_val (g : List Char) : Nat :=
  g.foldl (fun a c => a * 10 + (c.toNat - 48)) 0

/-- One IPv4 octet: nonempty, all digits, no leading zero, at most 255. -/
def ipv4_group_ok (g : List Char) : Bool :=
  !g.isEmpty && g.all (fun c => c.isDigit) &&
    (g.length == 1 || g.head? != some '0') &&
    decide (ipv4_group_val g ≤ 255)

/-- IPv4 literal over characters: exactly four valid octets. -/
def ipv4_core (cs : List Char) : Bool :=
  let ps := split_on_char '.' cs
  ps.length == 4 && ps.all ipv4_group_ok

/-- An IPv6 group: one to four hex digits. -/
def h16_ok (g : List Char) : Bool :=
  !g.isEmpty && decide (g.length ≤ 4) &&
    g.all (fun c => c.isDigit || ('a' ≤ c && c ≤ 'f') || ('A' ≤ c && c ≤ 'F'))

/-- Weight of the groups right of the gap (or of the whole address):
hex groups weigh 1, a final embedded IPv4 literal weighs 2. -/
def ipv6_tail_weight : List (List Char) → Option Nat
  | [] => some 0
  | [g] => if h16_ok g then some 1 else if ipv4_core g then some 2 else none
  | g :: rest =>
    if h16_ok g then (ipv6_tail_weight rest).map (· + 1) else none

/-- Splits a group list at its first empty segment (produced by `::` or a
stray colon), returning the nonempty groups before it and everything
after it. -/
def split_at_first_empty :
    List (List Char) → Option (List (List Char) × List (List Char))
  | [] => none
  | g :: rest =>
    if g.isEmpty then some ([], rest)
    else (split_at_first_empty rest).map (fun p => (g :: p.1, p.2))

/-- Validity of what follows a `::` gap: either the address ends right
after the gap, or gap-free groups of total weight at most `maxw`. -/
def ipv6_tail_ok (maxw : Nat) (right : List (List Char)) : Bool :=
  if right == [[]] then true
  else if !right.isEmpty && right.all (fun g => !g.isEmpty) then
    match ipv6_tail_weight right with
    | some w => decide (w ≤ maxw)
    | none => false
  else false

/-- IPv6 literal over a whole string. -/
def parse_ipv6 (s : String) : Bool :=
  let ps := split_on_char ':' s.data
  match split_at_first_empty ps with
  | none =>
    match ipv6_tail_weight ps with
    | some w => w == 8
    | none => false
  | some (left, right) =>
    if left.isEmpty then
      match right with
      | [] :: right' => ipv6_tail_ok 7 right'
      | _ => false
    else
      decide (left.length ≤ 7) && left.all h16_ok &&
        ipv6_tail_ok (7 - left.length) right

/-- `ip.parse::<IpAddr>().is_ok()`: IPv4 first, then IPv6. -/
def parse_ip_addr (s : String) : Bool :=
  ipv4_core s.data || parse_ipv6 s

/-- `validate_health_check` from the source. -/
def validate_health_check (healthcheck : HealthCheckMethod) :
    Except ServerConfigError Unit :=
  match healthcheck with
  | HealthCheckMethod.Http _ status regex =>
    if status.isNone && regex.isNone then
      Except.error (ServerConfigError.BadHealthCheckDefinition
        "HTTP health check requires an HTTP status code to match and/or a Regex to match in the response")
    else Except.ok ()
  | HealthCheckMethod.Port ip _ =>
    if !parse_ip_addr ip then
      Except.error (ServerConfigError.BadHealthCheckDefinition
        "Port check requires a valid IP address")
    else Except.ok ()
  | HealthCheckMethod.Shell _ status regex =>
    if status.isNone && regex.isNone then
      Except.error (ServerConfigError.BadHealthCheckDefinition
        "Health check via shell command requires an return code to match and/or a Regex to match in the standard output")
    else Except.ok ()

/-- The inner `for healthcheck in &server.check` loop of
`parse_server_dependencies`. -/
def validate_checks_of : List HealthCheck → Except ServerConfigError Unit
  | [] => Except.ok ()
  | c :: rest =>
    match validate_health_check c.method with
    | Except.error e => Except.error e
    | Except.ok _ => validate_checks_of rest

/-- The outer `for server in &servers` validation loop of
`parse_server_dependencies`. -/
def validate_all_checks : List Server → Except ServerConfigError Unit
  | [] => Except.ok ()
  | s :: rest =>
    match validate_checks_of s.check with
    | Except.error e => Except.error e
    | Except.ok _ => validate_all_checks rest

/-- `parse_server_dependencies` from the source, starting after the
external file read and YAML decode (so the `ParseError` path is out of
scope): validate every check of every server, then topologically sort. -/
def parse_server_dependencies (servers : List Server) :
    Option (Except ServerConfigError (List Server)) :=
  match validate_all_checks servers with
  | Except.error e => some (Except.error e)
  | Except.ok _ => determine_wakeup_order servers

/-! ## Probe execution

The probes perform I/O; their interaction with the outside world is
passed in as data: an HTTP request yields `none` (transport failure) or a
response with a status code and a body that may fail to read; a spawned
shell command yields `none` (spawn failure) or an exit code (`none` when
killed by a signal) plus captured stdout (the lossy UTF-8 conversion is
total, so stdout is a plain string). -/

/-- The parts of `reqwest::Response` the probe reads. -/
structure HttpResponse where
  status : Nat
  text : Option String

/-- The parts of `std::process::Output` the probe reads. -/
structure ShellOutput where
  code : Option Int
  stdout : String

/-- Body phase of `http_health_check` (after the status early return):
if a regex is configured, succeed exactly when the body is readable and
matches; otherwise succeed. -/
def http_check_body (resp : HttpResponse) (payload_regex : Option Pattern) : Bool :=
  match payload_regex with
  | some regex =>
    match resp.text with
    | some body => regex body
    | none => false
  | none => true

/-- `http_health_check` from the source, with the obtained response (or
transport failure) passed in. -/
def http_health_check (response : Option HttpResponse)
    (expected_status : Option Nat) (payload_regex : Option Pattern) : Bool :=
  match response with
  | some resp =>
    match expected_status with
    | some status =>
      if resp.status ≠ status then false else http_check_body resp payload_regex
    | none => http_check_body resp payload_regex
  | none => false

/-- Stdout phase of `shell_health_check` (after the exit-code early
return). -/
def shell_check_stdout (output : ShellOutput) (payload_regex : Option Pattern) :
    Bool :=
  match payload_regex with
  | some regex => if !regex output.stdout then false else true
  | none => true

/-- `shell_health_check` from the source, with the process result (or
spawn failure) passed in. -/
def shell_health_check (result : Option ShellOutput)
    (expected_status : Option Int) (payload_regex : Option Pattern) : Bool :=
  match result with
  | some output =>
    match expected_status with
    | some status =>
      if output.code ≠ some status then false else shell_check_stdout output payload_regex
    | none => shell_check_stdout output payload_regex
  | none => false

/-- One snapshot of the external world, as the three probes observe it. -/
structure World where
  http_response : String → Option HttpResponse
  tcp_connect : String → Nat → Bool
  shell_output : String → Option ShellOutput

/-- `port_health_check` from the source. -/
def port_health_check (w : World) (ip : String) (port : Nat) : Bool :=
  w.tcp_connect ip port

/-- `check_health` from the source: dispatch one probe attempt. -/
def check_health (w : World) (check : HealthCheckMethod) : Bool :=
  match check with
  | HealthCheckMethod.Http url status regex =>
    http_health_check (w.http_response url) status regex
  | HealthCheckMethod.Port ip port => port_health_check w ip port
  | HealthCheckMethod.Shell command status regex =>
    shell_health_check (w.shell_output command) status regex

/-! ## Concurrent health-check engine

`perform_health_checks` spawns one task per check; each task loops
(timeout test, then one probe, then a retry sleep), writes its terminal
check status into the shared list, and the parent awaits every task and
aggregates.  The embedding serialises the tasks: each task writes only
its own check slot and the parent joins them all before aggregating, so
the final state and return value are those of any interleaving.  A task
sees the world through a `CheckEnv`: `elapsed k` is the wall-clock time
observed at the top of iteration `k` (the retry sleeps and probe
durations are folded into it) and `world k` is the world snapshot probed
at iteration `k`. -/

structure CheckEnv where
  elapsed : Nat → Nat
  world : Nat → World

/-- The `loop` inside one spawned task, with fuel (an embedding artifact;
`none` means the loop has not terminated within `fuel` iterations). -/
def check_attempt_loop (check : HealthCheck) (env : CheckEnv) :
    Nat → Nat → Option CheckStatus
  | 0, _ => none
  | fuel + 1, k =>
    if check.timeout ≤ env.elapsed k then some CheckStatus.TimedOut
    else if check_health (env.world k) check.method then some CheckStatus.Ok
    else check_attempt_loop check env fuel (k + 1)

/-- One whole spawned task: run the loop from iteration 0. -/
def run_check_task (check : HealthCheck) (env : CheckEnv) (fuel : Nat) :
    Option CheckStatus :=
  check_attempt_loop check env fuel 0

/-- Runs the task of every check (check `i` sees environment `env i`),
collecting the terminal statuses in order. -/
def run_tasks (env : Nat → CheckEnv) (fuel : Nat) :
    Nat → List HealthCheck → Option (List CheckStatus)
  | _, [] => some []
  | i, c :: rest =>
    match run_check_task c (env i) fuel with
    | none => none
    | some r =>
      match run_tasks env fuel (i + 1) rest with
      | none => none
      | some rs => some (r :: rs)

/-- Final state of the check list: each check holds the terminal status
its task wrote. -/
def set_check_statuses : List HealthCheck → List CheckStatus → List HealthCheck
  | c :: cs, r :: rs => { c with status := r } :: set_check_statuses cs rs
  | cs, [] => cs
  | [], _ :: _ => []

/-- `perform_health_checks` from the source: read the indexed server's
checks, run every task, aggregate (`TimedOut` if any task timed out,
otherwise `Ok`), write the statuses back, and return the aggregate.
`none` models the panicking out-of-range index or a task that never
terminates. -/
def perform_health_checks (servers : List Server) (index : Nat)
    (env : Nat → CheckEnv) (fuel : Nat) : Option (ServerStatus × List Server) :=
  match servers[index]? with
  | none => none
  | some server =>
    match run_tasks env fuel 0 server.check with
    | none => none
    | some results =>
      let aggregate :=
        if results.contains CheckStatus.TimedOut then ServerStatus.TimedOut
        else ServerStatus.Ok
      let server' :=
        { server with
            status := aggregate,
            check := set_check_statuses server.check results }
      some (aggregate, servers.set index server')

/-! ## Claim-facing definitions -/

/-- The dependency relation of a configuration: `dep_step servers a b`
holds when the node named `a` lists `b` in its `depends`. -/
def dep_step (servers : List Server) (a b : String) : Prop :=
  ∃ s ∈ servers, s.name = a ∧ b ∈ s.depends

instance (servers : List Server) (a b : String) :
    Decidable (dep_step servers a b) := by
  unfold dep_step; infer_instance

/-- The health-check configurations the validator is specified to reject:
an endpoint or command probe with no criterion configured, or a port
probe whose ip is not a valid IP literal. -/
def bad_check_definition : HealthCheckMethod → Prop
  | HealthCheckMethod.Http _ status regex => status = none ∧ regex = none
  | HealthCheckMethod.Port ip _ => parse_ip_addr ip = false
  | HealthCheckMethod.Shell _ status regex => status = none ∧ regex = none

/-- Position of the first occurrence of `n` in `l` (the length of `l` when
absent); used to state in which order the resolver emits nodes. -/
def name_index (n : String) : List String → Nat
  | [] => 0
  | m :: rest => if m = n then 0 else name_index n rest + 1

/-- A node with no checks, used for the concrete configurations of the
resolver claims. -/
def plain_server (name : String) (mac : String) (deps : List String) : Server :=
  ⟨name, mac, "eth0", none, deps, [], ServerStatus.Waiting⟩

/-- The 4-node cycle of the spec: A→B→C→D→A in input order A,B,C,D. -/
def cycle_config : List Server :=
  [plain_server "A" "00:11:22:33:44:55" ["B"],
   plain_server "B" "66:77:88:99:AA:BB" ["C"],
   plain_server "C" "AA:BB:CC:DD:EE:FF" ["D"],
   plain_server "D" "FF:EE:DD:CC:BB:AA" ["A"]]

/-- The dependency-chain example of the spec:
server_a depends on [server_b, server_c], server_b on [server_c]. -/
def chain_config : List Server :=
  [plain_server "server_a" "00:11:22:33:44:55" ["server_b", "server_c"],
   plain_server "server_b" "11:22:33:44:55:66" ["server_c"],
   plain_server "server_c" "22:33:44:55:66:77" []]

/-- A world in which every TCP connection succeeds, used by concrete
engine runs. -/
def witness_world : World := ⟨fun _ => none, fun _ _ => true, fun _ => none⟩

/-- An environment with zero elapsed time and the all-connectable world. -/
def witness_env : CheckEnv := ⟨fun _ => 0, fun _ => witness_world⟩

/-- A concrete port check. -/
def witness_check : HealthCheck :=
  ⟨1, 5, HealthCheckMethod.Port "1.2.3.4" 80, CheckStatus.Waiting⟩

/-- A concrete server owning one check. -/
def witness_server : Server :=
  ⟨"s", "00:00:00:00:00:01", "eth0", none, [], [witness_check], ServerStatus.Waiting⟩

/-- A concrete checkless server sharing the list with `witness_server`. -/
def witness_bystander : Server :=
  ⟨"t", "00:00:00:00:00:02", "eth0", none, [], [], ServerStatus.Waiting⟩

/-- The dependency edge as the traversal resolves it: from the name `a`,
the name map yields a server whose depends list contains `b`.  With
pairwise distinct names this agrees with `dep_step`. -/
def look_step (servers : List Server) (a b : String) : Prop :=
  ∃ s, map_server_names servers a = some s ∧ b ∈ s.depends

/-- Invariant of the traversal state: `sorted` lists distinct, mapped
names, closed under dependencies and dependency-ordered; `visited` holds
exactly the sorted names; `visiting` is disjoint from `sorted`. -/
structure SortInv (servers : List Server) (st : DfsState) : Prop where
  nodup : st.sorted.Nodup
  visited_iff : ∀ n, n ∈ st.visited ↔ n ∈ st.sorted
  keys : ∀ n ∈ st.sorted, ∃ s, map_server_names servers n = some s
  closed : ∀ n ∈ st.sorted, ∀ s, map_server_names servers n = some s →
    ∀ d ∈ s.depends, d ∈ st.sorted ∧
      name_index d st.sorted < name_index n st.sorted
  disjoint : ∀ n ∈ st.visiting, n ∉ st.sorted

/-- A cyclic configuration that also contains an undefined dependency
reached earlier by the input-order-seeded traversal. -/
def cycle_with_undefined_config : List Server :=
  [plain_server "X" "0a:0a:0a:0a:0a:01" ["missing"],
   plain_server "Y" "0a:0a:0a:0a:0a:02" ["Y"]]

/-- A configuration with an undefined dependency that also contains a
cycle reached earlier by the input-order-seeded traversal. -/
def dangling_with_cycle_config : List Server :=
  [plain_server "P" "0b:0b:0b:0b:0b:01" ["P"],
   plain_server "Q" "0b:0b:0b:0b:0b:02" ["gone"]]

/-- An acyclic configuration whose only node has an undefined
dependency. -/
def dangling_config : List Server :=
  [plain_server "W" "0c:0c:0c:0c:0c:01" ["nope"]]

/-- First of two servers sharing a name. -/
def dup_first : Server := plain_server "dup" "aa:aa:aa:aa:aa:01" []

/-- Second of two servers sharing a name. -/
def dup_second : Server := plain_server "dup" "aa:aa:aa:aa:aa:02" []

/-- Two same-named no-dependency servers used to exercise
`duplicate_names_collapse` at a concrete input. -/
def twin_first : Server := plain_server "twin" "bb:bb:bb:bb:bb:01" []

/-- See `twin_first`. -/
def twin_second : Server := plain_server "twin" "bb:bb:bb:bb:bb:02" []

/-! ## Basic lemmas about the name map -/

theorem map_server_names_some {servers : List Server} {n : String} {s : Server}
    (h : map_server_names servers n = some s) : s ∈ servers ∧ s.name = n := by
  unfold map_server_names at h
  have h1 := List.find?_some h
  have h2 := List.mem_of_find?_eq_some h
  exact ⟨List.mem_reverse.mp h2, by simpa using h1⟩

theorem map_server_names_none {servers : List Server} {n : String}
    (h : map_server_names servers n = none) : ∀ s ∈ servers, s.name ≠ n := by
  intro s hs
  have := List.find?_eq_none.mp h s (List.mem_reverse.mpr hs)
  simpa using this

theorem map_server_names_of_mem {servers : List Server}
    (hnd : (servers.map Server.name).Nodup) {s : Server} (hs : s ∈ servers) :
    map_server_names servers s.name = some s := by
  unfold map_server_names
  match hfind : servers.reverse.find? (fun t => t.name == s.name) with
  | none =>
    have := List.find?_eq_none.mp hfind s (List.mem_reverse.mpr hs)
    simp at this
  | some t =>
    have h1 := List.find?_some hfind
    have h2 := List.mem_reverse.mp (List.mem_of_find?_eq_some hfind)
    have heq : t = s := List.inj_on_of_nodup_map hnd h2 hs (by simpa using h1)
    rw [hfind, heq]

theorem map_server_names_isSome_iff {servers : List Server} {n : String} :
    (∃ s, map_server_names servers n = some s) ↔ ∃ s ∈ servers, s.name = n := by
  constructor
  · rintro ⟨s, h⟩
    obtain ⟨hm, hn⟩ := map_server_names_some h
    exact ⟨s, hm, hn⟩
  · rintro ⟨s, hs, hn⟩
    match h : map_server_names servers n with
    | some t => exact ⟨t, rfl⟩
    | none => exact absurd hn (map_server_names_none h s hs)

/-! ## Lemmas about `name_index` -/

theorem name_index_lt_length {n : String} {l : List String} (h : n ∈ l) :
    name_index n l < l.length := by
  induction l with
  | nil => cases h
  | cons m rest ih =>
    by_cases hm : m = n
    · simp [name_index, hm]
    · have : n ∈ rest := by
        cases List.mem_cons.mp h with
        | inl h' => exact absurd h'.symm hm
        | inr h' => exact h'
      simp only [name_index, if_neg hm, List.length_cons]
      exact Nat.succ_lt_succ (ih this)

theorem name_index_append_of_mem {n : String} {l₁ l₂ : List String} (h : n ∈ l₁) :
    name_index n (l₁ ++ l₂) = name_index n l₁ := by
  induction l₁ with
  | nil => cases h
  | cons m rest ih =>
    by_cases hm : m = n
    · simp [name_index, hm]
    · have : n ∈ rest := by
        cases List.mem_cons.mp h with
        | inl h' => exact absurd h'.symm hm
        | inr h' => exact h'
      simp [name_index, if_neg hm, ih this]

theorem name_index_append_of_not_mem {n : String} {l₁ l₂ : List String}
    (h : n ∉ l₁) : name_index n (l₁ ++ l₂) = l₁.length + name_index n l₂ := by
  induction l₁ with
  | nil => simp
  | cons m rest ih =>
    have hm : m ≠ n := fun e => h (e ▸ List.mem_cons_self m rest)
    have : n ∉ rest := fun hr => h (List.mem_cons_of_mem m hr)
    simp [name_index, if_neg hm, ih this, Nat.add_assoc, Nat.add_comm 1]


/-! ## Probe success characterisation (C4) -/

theorem http_check_body_true_iff (resp : HttpResponse) (pr : Option Pattern) :
    http_check_body resp pr = true ↔
      ∀ r, pr = some r → ∃ body, resp.text = some body ∧ r body = true := by
  cases pr with
  | none => simp [http_check_body]
  | some r =>
    cases ht : resp.text with
    | none => simp [http_check_body, ht]
    | some body => simp [http_check_body, ht]

/-- C4: an HTTP or shell probe that obtains a response (resp. process
output) returns true exactly when every configured criterion matches:
the configured status or exit code (if any) equals the actual one, and
the configured pattern (if any) matches the body (which must then be
readable) resp. the captured stdout; a transport or spawn failure makes
the probe return false. -/
theorem probe_success_iff :
    (∀ response es pr, http_health_check response es pr = true ↔
       ∃ resp, response = some resp ∧ (∀ s, es = some s → resp.status = s) ∧
         (∀ r, pr = some r → ∃ body, resp.text = some body ∧ r body = true)) ∧
    (∀ result es pr, shell_health_check result es pr = true ↔
       ∃ out, result = some out ∧ (∀ s, es = some s → out.code = some s) ∧
         (∀ r, pr = some r → r out.stdout = true)) := by
  constructor
  · intro response es pr
    cases response with
    | none => simp [http_health_check]
    | some resp =>
      cases es with
      | none => simp [http_health_check, http_check_body_true_iff]
      | some s =>
        by_cases hs : resp.status = s
        · simp [http_health_check, hs, http_check_body_true_iff]
        · simp [http_health_check, hs]
  · intro result es pr
    cases result with
    | none => simp [shell_health_check]
    | some out =>
      have hstd : ∀ pr, shell_check_stdout out pr = true ↔
          ∀ r, pr = some r → r out.stdout = true := by
        intro pr
        cases pr with
        | none => simp [shell_check_stdout]
        | some r => simp [shell_check_stdout]
      cases es with
      | none => simp [shell_health_check, hstd]
      | some s =>
        by_cases hs : out.code = some s
        · simp [shell_health_check, hs, hstd]
        · simp [shell_health_check, hs]

theorem probe_success_iff_witness :
    http_health_check (some ⟨200, some "healthy"⟩) (some 200)
        (some (fun body => body == "healthy")) = true ∧
    shell_health_check none (some 0) none = false := by
  constructor
  · exact (probe_success_iff.1 _ _ _).mpr
      ⟨⟨200, some "healthy"⟩, rfl, by simp, by intro r hr; exact ⟨"healthy", rfl, by cases hr; rfl⟩⟩
  · have := probe_success_iff.2 none (some 0) none
    simp at this
    exact this


/-! ## Validator characterisation (C7) and task timeout entry (C9) -/

/-- C7: `validate_health_check` returns the `BadHealthCheckDefinition`
error exactly for an HTTP or shell check with neither status nor pattern
configured, or a port check whose ip does not parse as an IP literal;
concretely "192.168.1.1" passes and "invalid_ip" fails. -/
theorem validate_health_check_characterisation :
    (∀ m, (validate_health_check m = Except.ok () ↔ ¬ bad_check_definition m) ∧
       (bad_check_definition m → ∃ msg, validate_health_check m =
          Except.error (ServerConfigError.BadHealthCheckDefinition msg))) ∧
    validate_health_check (HealthCheckMethod.Port "192.168.1.1" 80) = Except.ok () ∧
    (∃ msg, validate_health_check (HealthCheckMethod.Port "invalid_ip" 80) =
      Except.error (ServerConfigError.BadHealthCheckDefinition msg)) := by
  refine ⟨?_, by rfl, ⟨"Port check requires a valid IP address", by rfl⟩⟩
  intro m
  constructor
  · cases m with
    | Http url status regex =>
      cases status <;> cases regex <;>
        simp [validate_health_check, bad_check_definition]
    | Port ip port =>
      by_cases hip : parse_ip_addr ip <;>
        simp [validate_health_check, bad_check_definition, hip]
    | Shell c status regex =>
      cases status <;> cases regex <;>
        simp [validate_health_check, bad_check_definition]
  · intro hbad
    cases m with
    | Http url status regex =>
      obtain ⟨h1, h2⟩ := hbad
      subst h1; subst h2
      exact ⟨_, rfl⟩
    | Port ip port =>
      have hbad' : parse_ip_addr ip = false := hbad
      exact ⟨"Port check requires a valid IP address",
        by simp [validate_health_check, hbad']⟩
    | Shell c status regex =>
      obtain ⟨h1, h2⟩ := hbad
      subst h1; subst h2
      exact ⟨_, rfl⟩

theorem validate_health_check_characterisation_witness :
    validate_health_check (HealthCheckMethod.Port "10.0.0.1" 80) = Except.ok () :=
  (validate_health_check_characterisation.1 _).1.mpr (by
    intro hbad
    have hb : parse_ip_addr "10.0.0.1" = false := hbad
    exact absurd hb (by decide))

/-- C9: in every per-check task the elapsed-versus-timeout comparison is
evaluated before each probe attempt: a check whose timeout is already
reached at loop entry (in particular a zero timeout) is marked TimedOut
whatever the probes would have answered, so no probe attempt is
executed. -/
theorem check_task_timeout_without_probe
    (check : HealthCheck) (elapsed : Nat → Nat) (fuel : Nat)
    (hfuel : 0 < fuel) (h : check.timeout ≤ elapsed 0) :
    ∀ world : Nat → World,
      run_check_task check ⟨elapsed, world⟩ fuel = some CheckStatus.TimedOut := by
  intro world
  match fuel, hfuel with
  | n + 1, _ => simp [run_check_task, check_attempt_loop, h]

theorem check_task_timeout_without_probe_witness :
    run_check_task ⟨10, 0, HealthCheckMethod.Port "1.2.3.4" 80, CheckStatus.Waiting⟩
      ⟨fun _ => 0, fun _ => ⟨fun _ => none, fun _ _ => true, fun _ => none⟩⟩ 1 =
      some CheckStatus.TimedOut :=
  check_task_timeout_without_probe _ _ _ (by decide) (by decide) _


/-! ## Health-check engine: task loop, aggregation (C5), frame (C10) -/

theorem check_attempt_loop_terminal (check : HealthCheck) (env : CheckEnv) :
    ∀ fuel k r, check_attempt_loop check env fuel k = some r →
      r = CheckStatus.TimedOut ∨ r = CheckStatus.Ok := by
  intro fuel
  induction fuel with
  | zero => intro k r h; simp [check_attempt_loop] at h
  | succ n ih =>
    intro k r h
    simp only [check_attempt_loop] at h
    split at h
    · exact Or.inl (Option.some.inj h).symm
    · split at h
      · exact Or.inr (Option.some.inj h).symm
      · exact ih (k + 1) r h

theorem run_tasks_spec (env : Nat → CheckEnv) (fuel : Nat) :
    ∀ checks i results, run_tasks env fuel i checks = some results →
      results.length = checks.length ∧
      ∀ j c, checks[j]? = some c →
        ∃ r, run_check_task c (env (i + j)) fuel = some r ∧ results[j]? = some r := by
  intro checks
  induction checks with
  | nil =>
    intro i results h
    simp [run_tasks] at h
    subst h
    exact ⟨rfl, by intro j c hc; simp at hc⟩
  | cons c rest ih =>
    intro i results h
    simp only [run_tasks] at h
    match hr : run_check_task c (env i) fuel with
    | none => rw [hr] at h; exact absurd h (by simp)
    | some r =>
      rw [hr] at h
      match hrest : run_tasks env fuel (i + 1) rest with
      | none => rw [hrest] at h; exact absurd h (by simp)
      | some rs =>
        rw [hrest] at h
        obtain ⟨hlen, hcorr⟩ := ih (i + 1) rs hrest
        cases h
        refine ⟨by simp [hlen], ?_⟩
        intro j d hd
        cases j with
        | zero =>
          simp at hd
          subst hd
          exact ⟨r, by simpa using hr, by simp⟩
        | succ j' =>
          simp at hd
          obtain ⟨r', hr', hres⟩ := hcorr j' d (by simpa using hd)
          refine ⟨r', ?_, by simpa using hres⟩
          have : i + 1 + j' = i + (j' + 1) := by omega
          rw [← this]
          exact hr'

theorem getElem?_some_lt {α : Type _} {l : List α} {i : Nat} {a : α}
    (h : l[i]? = some a) : i < l.length := by
  by_contra hc
  rw [List.getElem?_eq_none (by omega)] at h
  exact Option.noConfusion h

theorem run_tasks_terminal (env : Nat → CheckEnv) (fuel : Nat) :
    ∀ checks i results, run_tasks env fuel i checks = some results →
      ∀ r ∈ results, r = CheckStatus.TimedOut ∨ r = CheckStatus.Ok := by
  intro checks
  induction checks with
  | nil => intro i results h; simp [run_tasks] at h; subst h; intro r hr; simp at hr
  | cons c rest ih =>
    intro i results h
    simp only [run_tasks] at h
    match hr : run_check_task c (env i) fuel with
    | none => rw [hr] at h; exact absurd h (by simp)
    | some r0 =>
      rw [hr] at h
      match hrest : run_tasks env fuel (i + 1) rest with
      | none => rw [hrest] at h; exact absurd h (by simp)
      | some rs =>
        rw [hrest] at h
        cases h
        intro r hrm
        cases List.mem_cons.mp hrm with
        | inl he => exact he ▸ check_attempt_loop_terminal c (env i) fuel 0 r0 hr
        | inr ht => exact ih (i + 1) rs hrest r ht

theorem set_check_statuses_length :
    ∀ (cs : List HealthCheck) (rs : List CheckStatus),
      (set_check_statuses cs rs).length = cs.length := by
  intro cs
  induction cs with
  | nil => intro rs; cases rs <;> rfl
  | cons c cs ih =>
    intro rs
    cases rs with
    | nil => rfl
    | cons r rs => simp [set_check_statuses, ih]

theorem set_check_statuses_fields :
    ∀ (cs : List HealthCheck) (rs : List CheckStatus) (i : Nat) (c c' : HealthCheck),
      cs[i]? = some c → (set_check_statuses cs rs)[i]? = some c' →
      c'.retry = c.retry ∧ c'.timeout = c.timeout ∧ c'.method = c.method := by
  intro cs
  induction cs with
  | nil => intro rs i c c' hc; simp at hc
  | cons c0 cs ih =>
    intro rs i c c' hc hc'
    cases rs with
    | nil =>
      simp only [set_check_statuses] at hc'
      rw [hc] at hc'
      cases hc'
      exact ⟨rfl, rfl, rfl⟩
    | cons r rs =>
      cases i with
      | zero =>
        simp only [set_check_statuses] at hc'
        simp only [List.getElem?_cons_zero] at hc hc'
        cases hc
        cases hc'
        exact ⟨rfl, rfl, rfl⟩
      | succ i' =>
        simp only [set_check_statuses] at hc'
        simp only [List.getElem?_cons_succ] at hc hc'
        exact ih rs i' c c' hc hc'

/-- C5: once every per-check task has reached a terminal state (all are
TimedOut or Ok and each is awaited), `perform_health_checks` returns
TimedOut exactly when some check's task ended TimedOut and Ok otherwise;
a node with zero checks yields Ok; a sibling's success cannot
short-circuit the aggregate away from another check's timeout. -/
theorem perform_health_checks_aggregate
    (servers : List Server) (index : Nat) (env : Nat → CheckEnv) (fuel : Nat)
    (server : Server) (results : List CheckStatus)
    (hidx : servers[index]? = some server)
    (hrun : run_tasks env fuel 0 server.check = some results) :
    (∀ r ∈ results, r = CheckStatus.TimedOut ∨ r = CheckStatus.Ok) ∧
    (∀ j c, server.check[j]? = some c →
      ∃ r, run_check_task c (env j) fuel = some r ∧ results[j]? = some r) ∧
    perform_health_checks servers index env fuel =
      some
        (if CheckStatus.TimedOut ∈ results then ServerStatus.TimedOut
         else ServerStatus.Ok,
         servers.set index
          { server with
              status :=
                if CheckStatus.TimedOut ∈ results then ServerStatus.TimedOut
                else ServerStatus.Ok,
              check := set_check_statuses server.check results }) ∧
    (server.check = [] → perform_health_checks servers index env fuel =
      some (ServerStatus.Ok, servers.set index { server with status := ServerStatus.Ok })) := by
  have hterm := run_tasks_terminal env fuel server.check 0 results hrun
  have hcorr := (run_tasks_spec env fuel server.check 0 results hrun).2
  have hcontains : results.contains CheckStatus.TimedOut =
      decide (CheckStatus.TimedOut ∈ results) := by
    by_cases hm : CheckStatus.TimedOut ∈ results
    · simp [hm, List.elem_iff.mpr hm]
    · simp only [decide_eq_false hm]
      by_contra hc
      simp only [Bool.not_eq_false] at hc
      exact hm (List.elem_iff.mp hc)
  refine ⟨hterm, by simpa using hcorr, ?_, ?_⟩
  · simp only [perform_health_checks, hidx, hrun, hcontains]
    by_cases hm : CheckStatus.TimedOut ∈ results <;> simp [hm]
  · intro hempty
    rw [hempty] at hrun
    simp [run_tasks] at hrun
    subst hrun
    simp only [perform_health_checks, hidx, hempty, run_tasks, hcontains]
    simp [set_check_statuses]


/-- C10: `perform_health_checks servers index` mutates only the status
field of the server at `index` and the status fields of its checks:
every other list entry is unchanged, and the indexed server keeps its
name, mac, interface, vlan, depends, number of checks, and each check's
retry, timeout and method. -/
theorem perform_health_checks_frame
    (servers : List Server) (index : Nat) (env : Nat → CheckEnv) (fuel : Nat)
    (st : ServerStatus) (servers' : List Server)
    (h : perform_health_checks servers index env fuel = some (st, servers')) :
    servers'.length = servers.length ∧
    (∀ j, j ≠ index → servers'[j]? = servers[j]?) ∧
    ∀ server, servers[index]? = some server →
      ∃ server', servers'[index]? = some server' ∧
        server'.name = server.name ∧ server'.mac = server.mac ∧
        server'.interface = server.interface ∧ server'.vlan = server.vlan ∧
        server'.depends = server.depends ∧
        server'.check.length = server.check.length ∧
        (∀ (i : Nat) (c c' : HealthCheck),
          server.check[i]? = some c → server'.check[i]? = some c' →
          c'.retry = c.retry ∧ c'.timeout = c.timeout ∧ c'.method = c.method) := by
  match hidx : servers[index]? with
  | none =>
    simp only [perform_health_checks, hidx] at h
    exact Option.noConfusion h
  | some server0 =>
    rw [perform_health_checks] at h
    simp only [hidx] at h
    match hrun : run_tasks env fuel 0 server0.check with
    | none =>
      simp only [hrun] at h
      exact Option.noConfusion h
    | some results =>
      simp only [hrun] at h
      simp only [Option.some.injEq, Prod.mk.injEq] at h
      obtain ⟨hst, hset⟩ := h
      have hlt : index < servers.length := getElem?_some_lt hidx
      subst hset
      refine ⟨List.length_set servers index _ ▸ rfl, ?_, ?_⟩
      · intro j hj
        exact List.getElem?_set_ne (fun e => hj e.symm) 
      · intro server hserver
        cases hserver
        refine ⟨_, List.getElem?_set_eq_of_lt _ hlt, rfl, rfl, rfl, rfl, rfl,
          set_check_statuses_length _ _, ?_⟩
        intro i c c' hc hc'
        exact set_check_statuses_fields _ _ i c c' hc hc'

theorem perform_health_checks_aggregate_witness :
    perform_health_checks [witness_server] 0 (fun _ => witness_env) 2 =
      some (ServerStatus.Ok,
        [{ witness_server with
             status := ServerStatus.Ok,
             check := [{ witness_check with status := CheckStatus.Ok }] }]) := by
  have h := (perform_health_checks_aggregate [witness_server] 0 (fun _ => witness_env) 2
    witness_server [CheckStatus.Ok] rfl rfl).2.2.1
  simpa [witness_server, witness_check, set_check_statuses] using h

theorem perform_health_checks_frame_witness :
    ∃ servers', perform_health_checks [witness_server, witness_bystander] 0
        (fun _ => witness_env) 2 = some (ServerStatus.Ok, servers') ∧
      servers'[1]? = some witness_bystander := by
  refine ⟨_, rfl, ?_⟩
  exact ((perform_health_checks_frame [witness_server, witness_bystander] 0
    (fun _ => witness_env) 2 _ _ rfl).2.1 1 (by decide)).trans rfl

/-! ## Duplicate names are not rejected (C3) -/

/-- C3 counterexample: a configuration with two nodes named "dup" is not
rejected; loading succeeds and returns a single node (the later one), so
name uniqueness is not validated at load time. -/
theorem duplicate_name_not_rejected :
    parse_server_dependencies [dup_first, dup_second] =
      some (Except.ok [dup_second]) := rfl

/-- C3 (amended): a configuration of two otherwise-valid nodes sharing a
name is not rejected: loading succeeds and the duplicated name is
silently collapsed to its last occurrence, which alone appears in the
output. -/
theorem duplicate_names_collapse (s1 s2 : Server) (hname : s1.name = s2.name)
    (hd1 : s1.depends = []) (hc1 : s1.check = []) (hc2 : s2.check = []) :
    parse_server_dependencies [s1, s2] = some (Except.ok [s2]) := by
  have hv : validate_all_checks [s1, s2] = Except.ok () := by
    simp [validate_all_checks, validate_checks_of, hc1, hc2]
  have hlook : map_server_names [s1, s2] s1.name = some s2 := by
    simp [map_server_names, List.find?, hname]
  rw [parse_server_dependencies, hv]
  show determine_wakeup_order [s1, s2] = some (Except.ok [s2])
  rw [determine_wakeup_order]
  have hdfs : depth_first_search (map_server_names [s1, s2]) 3 s1 ⟨[], [], []⟩ =
      some (Except.ok ⟨[s1.name], [], [s1.name]⟩) := by
    simp [depth_first_search, dfs_deps, hd1]
  have hseed : wakeup_seed_loop (map_server_names [s1, s2]) 3 [s1, s2] ⟨[], [], []⟩ =
      some (Except.ok ⟨[s1.name], [], [s1.name]⟩) := by
    simp [wakeup_seed_loop, hdfs, hname]
  simp [hseed, hlook]

theorem duplicate_names_collapse_witness :
    parse_server_dependencies [twin_first, twin_second] =
      some (Except.ok [twin_second]) :=
  duplicate_names_collapse twin_first twin_second rfl rfl rfl rfl

/-! ## Dependency resolver metatheory (C1, C2, C6, C8) -/

theorem look_step_imp_dep_step {servers : List Server} {a b : String}
    (h : look_step servers a b) : dep_step servers a b := by
  obtain ⟨s, hs, hd⟩ := h
  obtain ⟨hm, hn⟩ := map_server_names_some hs
  exact ⟨s, hm, hn, hd⟩

theorem dep_step_imp_look_step {servers : List Server}
    (hnd : (servers.map Server.name).Nodup) {a b : String}
    (h : dep_step servers a b) : look_step servers a b := by
  obtain ⟨s, hm, hn, hd⟩ := h
  exact ⟨s, hn ▸ map_server_names_of_mem hnd hm, hd⟩

theorem dfs_deps_ok_spec (servers : List Server)
    (dfs_rec : Server → DfsState → Option (Except ServerConfigError DfsState))
    (hrec : ∀ server st st', map_server_names servers server.name = some server →
      SortInv servers st → dfs_rec server st = some (Except.ok st') →
      SortInv servers st' ∧ st'.visiting = st.visiting ∧
      (∃ t, st'.sorted = st.sorted ++ t) ∧ server.name ∈ st'.sorted) :
    ∀ deps st st', SortInv servers st →
      dfs_deps (map_server_names servers) dfs_rec deps st = some (Except.ok st') →
      SortInv servers st' ∧ st'.visiting = st.visiting ∧
      (∃ t, st'.sorted = st.sorted ++ t) ∧ ∀ d ∈ deps, d ∈ st'.sorted := by
  intro deps
  induction deps with
  | nil =>
    intro st st' hinv h
    simp only [dfs_deps, Option.some.injEq, Except.ok.injEq] at h
    subst h
    exact ⟨hinv, rfl, ⟨[], by simp⟩, by simp⟩
  | cons dep rest ih =>
    intro st st' hinv h
    simp only [dfs_deps] at h
    match hl : map_server_names servers dep with
    | none =>
      simp only [hl] at h
      exact absurd h (by simp)
    | some ds =>
      simp only [hl] at h
      match hr : dfs_rec ds st with
      | none =>
        simp only [hr] at h
        exact Option.noConfusion h
      | some (Except.error e) =>
        simp only [hr] at h
        exact absurd h (by simp)
      | some (Except.ok st₁) =>
        simp only [hr] at h
        have hdsname : ds.name = dep := (map_server_names_some hl).2
        have hlook : map_server_names servers ds.name = some ds := by
          rw [hdsname]; exact hl
        obtain ⟨hinv₁, hvis₁, ⟨t₁, hs₁⟩, hmem₁⟩ := hrec ds st st₁ hlook hinv hr
        obtain ⟨hinv', hvis', ⟨t₂, hs₂⟩, hmem'⟩ := ih st₁ st' hinv₁ h
        refine ⟨hinv', hvis'.trans hvis₁,
          ⟨t₁ ++ t₂, by rw [hs₂, hs₁, List.append_assoc]⟩, ?_⟩
        intro d hd
        cases List.mem_cons.mp hd with
        | inl he =>
          subst he
          rw [← hdsname]
          rw [hs₂]
          exact List.mem_append_left _ hmem₁
        | inr ht => exact hmem' d ht

theorem depth_first_search_ok_spec (servers : List Server) :
    ∀ fuel (server : Server) (st st' : DfsState),
      map_server_names servers server.name = some server →
      SortInv servers st →
      depth_first_search (map_server_names servers) fuel server st =
        some (Except.ok st') →
      SortInv servers st' ∧ st'.visiting = st.visiting ∧
      (∃ t, st'.sorted = st.sorted ++ t) ∧ server.name ∈ st'.sorted := by
  intro fuel
  induction fuel with
  | zero =>
    intro server st st' _ _ h
    simp [depth_first_search] at h
  | succ n ih =>
    intro server st st' hlook hinv h
    rw [depth_first_search] at h
    by_cases hvisg : server.name ∈ st.visiting
    · rw [if_pos hvisg] at h
      exact absurd h (by simp)
    · rw [if_neg hvisg] at h
      by_cases hvisd : server.name ∈ st.visited
      · rw [if_pos hvisd] at h
        simp only [Option.some.injEq, Except.ok.injEq] at h
        subst h
        exact ⟨hinv, rfl, ⟨[], by simp⟩, (hinv.visited_iff _).mp hvisd⟩
      · rw [if_neg hvisd] at h
        have hnsort : server.name ∉ st.sorted :=
          fun hc => hvisd ((hinv.visited_iff _).mpr hc)
        have hinv₁ : SortInv servers { st with visiting := server.name :: st.visiting } :=
          { nodup := hinv.nodup
            visited_iff := hinv.visited_iff
            keys := hinv.keys
            closed := hinv.closed
            disjoint := by
              intro m hm
              cases List.mem_cons.mp hm with
              | inl he => exact he ▸ hnsort
              | inr ht => exact hinv.disjoint m ht }
        match hd : dfs_deps (map_server_names servers)
            (fun s st₁ => depth_first_search (map_server_names servers) n s st₁)
            server.depends { st with visiting := server.name :: st.visiting } with
        | none =>
          rw [hd] at h
          exact Option.noConfusion h
        | some (Except.error e) =>
          rw [hd] at h
          exact absurd h (by simp)
        | some (Except.ok st₂) =>
          rw [hd] at h
          simp only [Option.some.injEq, Except.ok.injEq] at h
          obtain ⟨hinv₂, hvis₂, ⟨t, hs⟩, hdeps⟩ :=
            dfs_deps_ok_spec servers _
              (fun sv a b c d e => ih sv a b c d e)
              server.depends _ st₂ hinv₁ hd
          have hnmem : server.name ∉ st₂.sorted := by
            refine hinv₂.disjoint server.name ?_
            rw [hvis₂]
            exact List.mem_cons_self _ _
          have hvis' : st₂.visiting.erase server.name = st.visiting := by
            rw [hvis₂]
            exact List.erase_cons_head _ _
          have hsorted₂ : st₂.sorted = st.sorted ++ t := hs
          subst h
          have hidx_new : name_index server.name (st₂.sorted ++ [server.name]) =
              st₂.sorted.length := by
            rw [name_index_append_of_not_mem hnmem]
            simp [name_index]
          refine ⟨?_, hvis', ⟨t ++ [server.name], by
              simp only [List.append_assoc] at hsorted₂ ⊢
              rw [hsorted₂, List.append_assoc]⟩,
            List.mem_append_right _ (List.mem_singleton.mpr rfl)⟩
          refine
            { nodup := ?_
              visited_iff := ?_
              keys := ?_
              closed := ?_
              disjoint := ?_ }
          · exact List.Nodup.append hinv₂.nodup (List.nodup_singleton _)
              (fun a ha hb => hnmem ((List.mem_singleton.mp hb) ▸ ha))
          · intro m
            simp only [List.mem_cons, List.mem_append, List.mem_singleton,
              hinv₂.visited_iff m]
            tauto
          · intro m hm
            cases List.mem_append.mp hm with
            | inl hold => exact hinv₂.keys m hold
            | inr hnew =>
              rw [List.mem_singleton.mp hnew]
              exact ⟨server, hlook⟩
          · intro m hm s hsm d hdm
            cases List.mem_append.mp hm with
            | inl hold =>
              obtain ⟨hdin, hlt⟩ := hinv₂.closed m hold s hsm d hdm
              refine ⟨List.mem_append_left _ hdin, ?_⟩
              rw [name_index_append_of_mem hdin, name_index_append_of_mem hold]
              exact hlt
            | inr hnew =>
              have hmname : m = server.name := List.mem_singleton.mp hnew
              subst hmname
              have hseq : s = server := by
                rw [hlook] at hsm
                exact (Option.some.inj hsm).symm
              subst hseq
              have hdin : d ∈ st₂.sorted := hdeps d hdm
              refine ⟨List.mem_append_left _ hdin, ?_⟩
              rw [name_index_append_of_mem hdin, hidx_new]
              exact name_index_lt_length hdin
          · intro m hm
            have hm₂ : m ∈ st₂.visiting := by
              rw [hvis₂]
              exact List.mem_cons_of_mem _ (hvis' ▸ hm)
            have hmne : m ≠ server.name := by
              intro he
              exact hvisg (he ▸ (hvis' ▸ hm))
            intro hc
            cases List.mem_append.mp hc with
            | inl hold => exact hinv₂.disjoint m hm₂ hold
            | inr hnew => exact hmne (List.mem_singleton.mp hnew)

theorem wakeup_seed_loop_ok_spec (servers : List Server)
    (hnd : (servers.map Server.name).Nodup) (fuel : Nat) :
    ∀ (seeds : List Server) (st st' : DfsState),
      (∀ s ∈ seeds, s ∈ servers) → SortInv servers st →
      wakeup_seed_loop (map_server_names servers) fuel seeds st =
        some (Except.ok st') →
      SortInv servers st' ∧ (∃ t, st'.sorted = st.sorted ++ t) ∧
      ∀ s ∈ seeds, s.name ∈ st'.sorted := by
  intro seeds
  induction seeds with
  | nil =>
    intro st st' _ hinv h
    simp only [wakeup_seed_loop, Option.some.injEq, Except.ok.injEq] at h
    subst h
    exact ⟨hinv, ⟨[], by simp⟩, by simp⟩
  | cons s rest ih =>
    intro st st' hmem hinv h
    simp only [wakeup_seed_loop] at h
    by_cases hv : s.name ∈ st.visited
    · rw [if_pos hv] at h
      obtain ⟨hinv', ⟨t, hs⟩, hnames⟩ :=
        ih st st' (fun x hx => hmem x (List.mem_cons_of_mem _ hx)) hinv h
      refine ⟨hinv', ⟨t, hs⟩, ?_⟩
      intro x hx
      cases List.mem_cons.mp hx with
      | inl he =>
        subst he
        rw [hs]
        exact List.mem_append_left _ ((hinv.visited_iff _).mp hv)
      | inr ht => exact hnames x ht
    · rw [if_neg hv] at h
      have hslook : map_server_names servers s.name = some s :=
        map_server_names_of_mem hnd (hmem s (List.mem_cons_self _ _))
      match hdfs : depth_first_search (map_server_names servers) fuel s st with
      | none =>
        simp only [hdfs] at h
        exact Option.noConfusion h
      | some (Except.error e) =>
        simp only [hdfs] at h
        exact absurd h (by simp)
      | some (Except.ok st₁) =>
        simp only [hdfs] at h
        obtain ⟨hinv₁, _, ⟨t₁, hs₁⟩, hname₁⟩ :=
          depth_first_search_ok_spec servers fuel s st st₁ hslook hinv hdfs
        obtain ⟨hinv', ⟨t₂, hs₂⟩, hnames⟩ :=
          ih st₁ st' (fun x hx => hmem x (List.mem_cons_of_mem _ hx)) hinv₁ h
        refine ⟨hinv', ⟨t₁ ++ t₂, by rw [hs₂, hs₁, List.append_assoc]⟩, ?_⟩
        intro x hx
        cases List.mem_cons.mp hx with
        | inl he =>
          subst he
          rw [hs₂]
          exact List.mem_append_left _ hname₁
        | inr ht => exact hnames x ht

theorem dfs_deps_visiting (lookup : String → Option Server)
    (dfs_rec : Server → DfsState → Option (Except ServerConfigError DfsState))
    (hrec : ∀ s st st', dfs_rec s st = some (Except.ok st') →
      st'.visiting = st.visiting) :
    ∀ deps st st', dfs_deps lookup dfs_rec deps st = some (Except.ok st') →
      st'.visiting = st.visiting := by
  intro deps
  induction deps with
  | nil =>
    intro st st' h
    simp only [dfs_deps, Option.some.injEq, Except.ok.injEq] at h
    subst h
    rfl
  | cons dep rest ih =>
    intro st st' h
    simp only [dfs_deps] at h
    match hl : lookup dep with
    | none =>
      simp only [hl] at h
      exact absurd h (by simp)
    | some ds =>
      simp only [hl] at h
      match hr : dfs_rec ds st with
      | none =>
        simp only [hr] at h
        exact Option.noConfusion h
      | some (Except.error e) =>
        simp only [hr] at h
        exact absurd h (by simp)
      | some (Except.ok st₁) =>
        simp only [hr] at h
        exact (ih st₁ st' h).trans (hrec ds st st₁ hr)

theorem depth_first_search_visiting (lookup : String → Option Server) :
    ∀ fuel (server : Server) (st st' : DfsState),
      depth_first_search lookup fuel server st = some (Except.ok st') →
      st'.visiting = st.visiting := by
  intro fuel
  induction fuel with
  | zero =>
    intro server st st' h
    simp [depth_first_search] at h
  | succ n ih =>
    intro server st st' h
    rw [depth_first_search] at h
    by_cases hvisg : server.name ∈ st.visiting
    · rw [if_pos hvisg] at h
      exact absurd h (by simp)
    · rw [if_neg hvisg] at h
      by_cases hvisd : server.name ∈ st.visited
      · rw [if_pos hvisd] at h
        simp only [Option.some.injEq, Except.ok.injEq] at h
        subst h
        rfl
      · rw [if_neg hvisd] at h
        match hd : dfs_deps lookup
            (fun s st₁ => depth_first_search lookup n s st₁)
            server.depends { st with visiting := server.name :: st.visiting } with
        | none =>
          rw [hd] at h
          exact Option.noConfusion h
        | some (Except.error e) =>
          rw [hd] at h
          exact absurd h (by simp)
        | some (Except.ok st₂) =>
          rw [hd] at h
          simp only [Option.some.injEq, Except.ok.injEq] at h
          have hvis₂ : st₂.visiting = server.name :: st.visiting :=
            dfs_deps_visiting lookup _ (fun a b c hh => ih a b c hh)
              server.depends _ st₂ hd
          subst h
          simp only [hvis₂]
          exact List.erase_cons_head _ _

theorem dfs_deps_ne_none (servers : List Server) (nfuel : Nat)
    (dfs_rec : Server → DfsState → Option (Except ServerConfigError DfsState))
    (hrec_ne : ∀ (s : Server) (st : DfsState),
      s.name ∈ servers.map Server.name →
      (∀ m ∈ st.visiting, m ∈ servers.map Server.name) → st.visiting.Nodup →
      (servers.map Server.name).toFinset.card < nfuel + st.visiting.length →
      dfs_rec s st ≠ none)
    (hrec_vis : ∀ s st st', dfs_rec s st = some (Except.ok st') →
      st'.visiting = st.visiting) :
    ∀ deps st,
      (∀ m ∈ st.visiting, m ∈ servers.map Server.name) → st.visiting.Nodup →
      (servers.map Server.name).toFinset.card < nfuel + st.visiting.length →
      dfs_deps (map_server_names servers) dfs_rec deps st ≠ none := by
  intro deps
  induction deps with
  | nil => intro st _ _ _; simp [dfs_deps]
  | cons dep rest ih =>
    intro st hsub hnd hcard
    simp only [dfs_deps]
    match hl : map_server_names servers dep with
    | none => simp [hl]
    | some ds =>
      simp only [hl]
      have hds : ds.name ∈ servers.map Server.name := by
        obtain ⟨hm, _⟩ := map_server_names_some hl
        exact List.mem_map.mpr ⟨ds, hm, rfl⟩
      match hr : dfs_rec ds st with
      | none => exact absurd hr (hrec_ne ds st hds hsub hnd hcard)
      | some (Except.error e) => simp [hr]
      | some (Except.ok st₁) =>
        simp only [hr]
        have hv := hrec_vis ds st st₁ hr
        exact ih st₁ (by rw [hv]; exact hsub) (by rw [hv]; exact hnd)
          (by rw [hv]; exact hcard)

theorem depth_first_search_ne_none (servers : List Server) :
    ∀ fuel (server : Server) (st : DfsState),
      server.name ∈ servers.map Server.name →
      (∀ m ∈ st.visiting, m ∈ servers.map Server.name) →
      st.visiting.Nodup →
      (servers.map Server.name).toFinset.card < fuel + st.visiting.length →
      depth_first_search (map_server_names servers) fuel server st ≠ none := by
  intro fuel
  induction fuel with
  | zero =>
    intro server st hname hsub hnd hcard
    exfalso
    have h1 : st.visiting.toFinset.card = st.visiting.length :=
      List.toFinset_card_of_nodup hnd
    have h2 : st.visiting.toFinset ⊆ (servers.map Server.name).toFinset := by
      intro x hx
      exact List.mem_toFinset.mpr (hsub x (List.mem_toFinset.mp hx))
    have h3 := Finset.card_le_card h2
    omega
  | succ n ih =>
    intro server st hname hsub hnd hcard
    rw [depth_first_search]
    by_cases hvisg : server.name ∈ st.visiting
    · simp [if_pos hvisg]
    · rw [if_neg hvisg]
      by_cases hvisd : server.name ∈ st.visited
      · simp [if_pos hvisd]
      · rw [if_neg hvisd]
        have hsub' : ∀ m ∈ server.name :: st.visiting,
            m ∈ servers.map Server.name := by
          intro m hm
          cases List.mem_cons.mp hm with
          | inl he => exact he ▸ hname
          | inr ht => exact hsub m ht
        have hnd' : (server.name :: st.visiting).Nodup :=
          List.nodup_cons.mpr ⟨hvisg, hnd⟩
        have hcard' : (servers.map Server.name).toFinset.card <
            n + (server.name :: st.visiting).length := by
          simp only [List.length_cons]
          omega
        have hdeps := dfs_deps_ne_none servers n _
          (fun s st₂ a b c d => ih s st₂ a b c d)
          (fun a b c hh => depth_first_search_visiting _ n a b c hh)
          server.depends { st with visiting := server.name :: st.visiting }
          hsub' hnd' hcard'
        match hd : dfs_deps (map_server_names servers)
            (fun s st₁ => depth_first_search (map_server_names servers) n s st₁)
            server.depends { st with visiting := server.name :: st.visiting } with
        | none => exact absurd hd hdeps
        | some (Except.error e) => simp [hd]
        | some (Except.ok st₂) => simp [hd]

theorem wakeup_seed_loop_ne_none (servers : List Server) (fuel : Nat) :
    ∀ (seeds : List Server) (st : DfsState),
      (∀ s ∈ seeds, s ∈ servers) → st.visiting = [] →
      (servers.map Server.name).toFinset.card < fuel →
      wakeup_seed_loop (map_server_names servers) fuel seeds st ≠ none := by
  intro seeds
  induction seeds with
  | nil => intro st _ _ _; simp [wakeup_seed_loop]
  | cons s rest ih =>
    intro st hmem hvis hcard
    simp only [wakeup_seed_loop]
    by_cases hv : s.name ∈ st.visited
    · rw [if_pos hv]
      exact ih st (fun x hx => hmem x (List.mem_cons_of_mem _ hx)) hvis hcard
    · rw [if_neg hv]
      have hne := depth_first_search_ne_none servers fuel s st
        (List.mem_map.mpr ⟨s, hmem s (List.mem_cons_self _ _), rfl⟩)
        (by rw [hvis]; intro m hm; cases hm)
        (by rw [hvis]; exact List.nodup_nil)
        (by rw [hvis]; simpa using hcard)
      match hd : depth_first_search (map_server_names servers) fuel s st with
      | none => exact absurd hd hne
      | some (Except.error e) => simp [hd]
      | some (Except.ok st₁) =>
        simp only [hd]
        have hvis₁ : st₁.visiting = [] :=
          (depth_first_search_visiting _ fuel s st st₁ hd).trans hvis
        exact ih st₁ (fun x hx => hmem x (List.mem_cons_of_mem _ hx)) hvis₁ hcard

theorem determine_wakeup_order_ne_none (servers : List Server) :
    determine_wakeup_order servers ≠ none := by
  rw [determine_wakeup_order]
  have hcard : (servers.map Server.name).toFinset.card < servers.length + 1 := by
    have h1 : (servers.map Server.name).toFinset.card ≤
        (servers.map Server.name).length := List.toFinset_card_le _
    simp only [List.length_map] at h1
    omega
  have hne := wakeup_seed_loop_ne_none servers (servers.length + 1) servers
    ⟨[], [], []⟩ (fun s hs => hs) rfl hcard
  match hseed : wakeup_seed_loop (map_server_names servers)
      (servers.length + 1) servers ⟨[], [], []⟩ with
  | none => exact absurd hseed hne
  | some (Except.error e) => simp [hseed]
  | some (Except.ok st) => simp [hseed]

theorem dfs_deps_error_kinds (lookup : String → Option Server)
    (dfs_rec : Server → DfsState → Option (Except ServerConfigError DfsState))
    (hrec : ∀ s st e, dfs_rec s st = some (Except.error e) →
      (∃ m, e = ServerConfigError.CircularDependency m) ∨
      (∃ d, e = ServerConfigError.UndefinedDependency d)) :
    ∀ deps st e, dfs_deps lookup dfs_rec deps st = some (Except.error e) →
      (∃ m, e = ServerConfigError.CircularDependency m) ∨
      (∃ d, e = ServerConfigError.UndefinedDependency d) := by
  intro deps
  induction deps with
  | nil => intro st e h; simp [dfs_deps] at h
  | cons dep rest ih =>
    intro st e h
    simp only [dfs_deps] at h
    match hl : lookup dep with
    | none =>
      simp only [hl, Option.some.injEq, Except.error.injEq] at h
      exact Or.inr ⟨dep, h.symm⟩
    | some ds =>
      simp only [hl] at h
      match hr : dfs_rec ds st with
      | none => simp only [hr] at h; exact Option.noConfusion h
      | some (Except.error e') =>
        simp only [hr, Option.some.injEq, Except.error.injEq] at h
        exact h ▸ hrec ds st e' hr
      | some (Except.ok st₁) =>
        simp only [hr] at h
        exact ih st₁ e h

theorem depth_first_search_error_kinds (lookup : String → Option Server) :
    ∀ fuel (server : Server) (st : DfsState) e,
      depth_first_search lookup fuel server st = some (Except.error e) →
      (∃ m, e = ServerConfigError.CircularDependency m) ∨
      (∃ d, e = ServerConfigError.UndefinedDependency d) := by
  intro fuel
  induction fuel with
  | zero => intro server st e h; simp [depth_first_search] at h
  | succ n ih =>
    intro server st e h
    rw [depth_first_search] at h
    by_cases hvisg : server.name ∈ st.visiting
    · rw [if_pos hvisg] at h
      simp only [Option.some.injEq, Except.error.injEq] at h
      exact Or.inl ⟨server.name, h.symm⟩
    · rw [if_neg hvisg] at h
      by_cases hvisd : server.name ∈ st.visited
      · rw [if_pos hvisd] at h
        exact absurd h (by simp)
      · rw [if_neg hvisd] at h
        match hd : dfs_deps lookup
            (fun s st₁ => depth_first_search lookup n s st₁)
            server.depends { st with visiting := server.name :: st.visiting } with
        | none => rw [hd] at h; exact Option.noConfusion h
        | some (Except.error e') =>
          rw [hd] at h
          simp only [Option.some.injEq, Except.error.injEq] at h
          refine h ▸ dfs_deps_error_kinds lookup _
            (fun s st₂ e₂ hh => ih s st₂ e₂ hh) server.depends _ e' hd
        | some (Except.ok st₂) =>
          rw [hd] at h
          exact absurd h (by simp)

theorem wakeup_seed_loop_error_kinds (lookup : String → Option Server)
    (fuel : Nat) :
    ∀ (seeds : List Server) (st : DfsState) e,
      wakeup_seed_loop lookup fuel seeds st = some (Except.error e) →
      (∃ m, e = ServerConfigError.CircularDependency m) ∨
      (∃ d, e = ServerConfigError.UndefinedDependency d) := by
  intro seeds
  induction seeds with
  | nil => intro st e h; simp [wakeup_seed_loop] at h
  | cons s rest ih =>
    intro st e h
    simp only [wakeup_seed_loop] at h
    by_cases hv : s.name ∈ st.visited
    · rw [if_pos hv] at h
      exact ih st e h
    · rw [if_neg hv] at h
      match hd : depth_first_search lookup fuel s st with
      | none => simp only [hd] at h; exact Option.noConfusion h
      | some (Except.error e') =>
        simp only [hd, Option.some.injEq, Except.error.injEq] at h
        exact h ▸ depth_first_search_error_kinds lookup fuel s st e' hd
      | some (Except.ok st₁) =>
        simp only [hd] at h
        exact ih st₁ e h

theorem dfs_deps_error_undefined (servers : List Server)
    (dfs_rec : Server → DfsState → Option (Except ServerConfigError DfsState))
    (hrec : ∀ (s : Server) (st : DfsState) d, s ∈ servers →
      dfs_rec s st = some (Except.error (ServerConfigError.UndefinedDependency d)) →
      map_server_names servers d = none ∧ ∃ s' ∈ servers, d ∈ s'.depends) :
    ∀ deps st d, (∀ dep ∈ deps, ∃ s0 ∈ servers, dep ∈ s0.depends) →
      dfs_deps (map_server_names servers) dfs_rec deps st =
        some (Except.error (ServerConfigError.UndefinedDependency d)) →
      map_server_names servers d = none ∧ ∃ s' ∈ servers, d ∈ s'.depends := by
  intro deps
  induction deps with
  | nil => intro st d _ h; simp [dfs_deps] at h
  | cons dep rest ih =>
    intro st d horig h
    simp only [dfs_deps] at h
    match hl : map_server_names servers dep with
    | none =>
      simp only [hl, Option.some.injEq, Except.error.injEq,
        ServerConfigError.UndefinedDependency.injEq] at h
      subst h
      exact ⟨hl, horig dep (List.mem_cons_self _ _)⟩
    | some ds =>
      simp only [hl] at h
      match hr : dfs_rec ds st with
      | none => simp only [hr] at h; exact Option.noConfusion h
      | some (Except.error e') =>
        simp only [hr, Option.some.injEq, Except.error.injEq] at h
        exact hrec ds st d (map_server_names_some hl).1 (by rw [hr, h])
      | some (Except.ok st₁) =>
        simp only [hr] at h
        exact ih st₁ d (fun x hx => horig x (List.mem_cons_of_mem _ hx)) h

theorem depth_first_search_error_undefined (servers : List Server) :
    ∀ fuel (server : Server) (st : DfsState) d, server ∈ servers →
      depth_first_search (map_server_names servers) fuel server st =
        some (Except.error (ServerConfigError.UndefinedDependency d)) →
      map_server_names servers d = none ∧ ∃ s' ∈ servers, d ∈ s'.depends := by
  intro fuel
  induction fuel with
  | zero => intro server st d _ h; simp [depth_first_search] at h
  | succ n ih =>
    intro server st d hmem h
    rw [depth_first_search] at h
    by_cases hvisg : server.name ∈ st.visiting
    · rw [if_pos hvisg] at h
      exact absurd h (by simp)
    · rw [if_neg hvisg] at h
      by_cases hvisd : server.name ∈ st.visited
      · rw [if_pos hvisd] at h
        exact absurd h (by simp)
      · rw [if_neg hvisd] at h
        match hd : dfs_deps (map_server_names servers)
            (fun s st₁ => depth_first_search (map_server_names servers) n s st₁)
            server.depends { st with visiting := server.name :: st.visiting } with
        | none => rw [hd] at h; exact Option.noConfusion h
        | some (Except.error e') =>
          rw [hd] at h
          simp only [Option.some.injEq, Except.error.injEq] at h
          subst h
          exact dfs_deps_error_undefined servers _
            (fun s st₂ d₂ a hh => ih s st₂ d₂ a hh)
            server.depends _ d
            (fun dep hdep => ⟨server, hmem, hdep⟩) hd
        | some (Except.ok st₂) =>
          rw [hd] at h
          exact absurd h (by simp)

theorem wakeup_seed_loop_error_undefined (servers : List Server) (fuel : Nat) :
    ∀ (seeds : List Server) (st : DfsState) d,
      (∀ s ∈ seeds, s ∈ servers) →
      wakeup_seed_loop (map_server_names servers) fuel seeds st =
        some (Except.error (ServerConfigError.UndefinedDependency d)) →
      map_server_names servers d = none ∧ ∃ s' ∈ servers, d ∈ s'.depends := by
  intro seeds
  induction seeds with
  | nil => intro st d _ h; simp [wakeup_seed_loop] at h
  | cons s rest ih =>
    intro st d hmem h
    simp only [wakeup_seed_loop] at h
    by_cases hv : s.name ∈ st.visited
    · rw [if_pos hv] at h
      exact ih st d (fun x hx => hmem x (List.mem_cons_of_mem _ hx)) h
    · rw [if_neg hv] at h
      match hd : depth_first_search (map_server_names servers) fuel s st with
      | none => simp only [hd] at h; exact Option.noConfusion h
      | some (Except.error e') =>
        simp only [hd, Option.some.injEq, Except.error.injEq] at h
        subst h
        exact depth_first_search_error_undefined servers fuel s st d
          (hmem s (List.mem_cons_self _ _)) hd
      | some (Except.ok st₁) =>
        simp only [hd] at h
        exact ih st₁ d (fun x hx => hmem x (List.mem_cons_of_mem _ hx)) h

theorem dfs_deps_circular (servers : List Server)
    (dfs_rec : Server → DfsState → Option (Except ServerConfigError DfsState))
    (hrec : ∀ (s : Server) (st : DfsState) m,
      map_server_names servers s.name = some s →
      (∀ x ∈ st.visiting, Relation.TransGen (look_step servers) x s.name) →
      dfs_rec s st = some (Except.error (ServerConfigError.CircularDependency m)) →
      Relation.TransGen (look_step servers) m m)
    (hrec_vis : ∀ s st st', dfs_rec s st = some (Except.ok st') →
      st'.visiting = st.visiting) :
    ∀ deps st m,
      (∀ d ∈ deps, ∀ x ∈ st.visiting, Relation.TransGen (look_step servers) x d) →
      dfs_deps (map_server_names servers) dfs_rec deps st =
        some (Except.error (ServerConfigError.CircularDependency m)) →
      Relation.TransGen (look_step servers) m m := by
  intro deps
  induction deps with
  | nil => intro st m _ h; simp [dfs_deps] at h
  | cons dep rest ih =>
    intro st m hstack h
    simp only [dfs_deps] at h
    match hl : map_server_names servers dep with
    | none =>
      simp only [hl, Option.some.injEq, Except.error.injEq] at h
      exact absurd h.symm (by simp)
    | some ds =>
      simp only [hl] at h
      match hr : dfs_rec ds st with
      | none => simp only [hr] at h; exact Option.noConfusion h
      | some (Except.error e') =>
        simp only [hr, Option.some.injEq, Except.error.injEq] at h
        subst h
        have hdsname : ds.name = dep := (map_server_names_some hl).2
        refine hrec ds st m (by rw [hdsname]; exact hl) ?_ hr
        intro x hx
        rw [hdsname]
        exact hstack dep (List.mem_cons_self _ _) x hx
      | some (Except.ok st₁) =>
        simp only [hr] at h
        refine ih st₁ m ?_ h
        intro d hd x hx
        have hv := hrec_vis ds st st₁ hr
        rw [hv] at hx
        exact hstack d (List.mem_cons_of_mem _ hd) x hx

theorem depth_first_search_circular (servers : List Server) :
    ∀ fuel (server : Server) (st : DfsState) m,
      map_server_names servers server.name = some server →
      (∀ x ∈ st.visiting, Relation.TransGen (look_step servers) x server.name) →
      depth_first_search (map_server_names servers) fuel server st =
        some (Except.error (ServerConfigError.CircularDependency m)) →
      Relation.TransGen (look_step servers) m m := by
  intro fuel
  induction fuel with
  | zero => intro server st m _ _ h; simp [depth_first_search] at h
  | succ n ih =>
    intro server st m hlook hstack h
    rw [depth_first_search] at h
    by_cases hvisg : server.name ∈ st.visiting
    · rw [if_pos hvisg] at h
      simp only [Option.some.injEq, Except.error.injEq,
        ServerConfigError.CircularDependency.injEq] at h
      subst h
      exact hstack server.name hvisg
    · rw [if_neg hvisg] at h
      by_cases hvisd : server.name ∈ st.visited
      · rw [if_pos hvisd] at h
        exact absurd h (by simp)
      · rw [if_neg hvisd] at h
        match hd : dfs_deps (map_server_names servers)
            (fun s st₁ => depth_first_search (map_server_names servers) n s st₁)
            server.depends { st with visiting := server.name :: st.visiting } with
        | none => rw [hd] at h; exact Option.noConfusion h
        | some (Except.error e') =>
          rw [hd] at h
          simp only [Option.some.injEq, Except.error.injEq] at h
          subst h
          refine dfs_deps_circular servers _
            (fun s st₂ m₂ a b hh => ih s st₂ m₂ a b hh)
            (fun a b c hh => depth_first_search_visiting _ n a b c hh)
            server.depends _ m ?_ hd
          intro d hd₂ x hx
          have hedge : look_step servers server.name d := ⟨server, hlook, hd₂⟩
          cases List.mem_cons.mp hx with
          | inl he =>
            subst he
            exact Relation.TransGen.single hedge
          | inr ht =>
            exact Relation.TransGen.tail (hstack x ht) hedge
        | some (Except.ok st₂) =>
          rw [hd] at h
          exact absurd h (by simp)

theorem wakeup_seed_loop_circular (servers : List Server)
    (hnd : (servers.map Server.name).Nodup) (fuel : Nat) :
    ∀ (seeds : List Server) (st : DfsState) m,
      (∀ s ∈ seeds, s ∈ servers) → st.visiting = [] →
      wakeup_seed_loop (map_server_names servers) fuel seeds st =
        some (Except.error (ServerConfigError.CircularDependency m)) →
      Relation.TransGen (look_step servers) m m := by
  intro seeds
  induction seeds with
  | nil => intro st m _ _ h; simp [wakeup_seed_loop] at h
  | cons s rest ih =>
    intro st m hmem hvis h
    simp only [wakeup_seed_loop] at h
    by_cases hv : s.name ∈ st.visited
    · rw [if_pos hv] at h
      exact ih st m (fun x hx => hmem x (List.mem_cons_of_mem _ hx)) hvis h
    · rw [if_neg hv] at h
      match hd : depth_first_search (map_server_names servers) fuel s st with
      | none => simp only [hd] at h; exact Option.noConfusion h
      | some (Except.error e') =>
        simp only [hd, Option.some.injEq, Except.error.injEq] at h
        subst h
        exact depth_first_search_circular servers fuel s st m
          (map_server_names_of_mem hnd (hmem s (List.mem_cons_self _ _)))
          (by rw [hvis]; intro x hx; cases hx) hd
      | some (Except.ok st₁) =>
        simp only [hd] at h
        have hvis₁ : st₁.visiting = [] :=
          (depth_first_search_visiting _ fuel s st st₁ hd).trans hvis
        exact ih st₁ m (fun x hx => hmem x (List.mem_cons_of_mem _ hx)) hvis₁ h

theorem sorted_topo (servers : List Server) (st : DfsState)
    (hinv : SortInv servers st) :
    ∀ a b, Relation.TransGen (look_step servers) a b → a ∈ st.sorted →
      b ∈ st.sorted ∧ name_index b st.sorted < name_index a st.sorted := by
  intro a b h
  induction h with
  | single hstep =>
    intro ha
    obtain ⟨s, hs, hd⟩ := hstep
    exact hinv.closed a ha s hs _ hd
  | tail h1 hstep ih =>
    intro ha
    obtain ⟨hb', hlt'⟩ := ih ha
    obtain ⟨s, hs, hd⟩ := hstep
    obtain ⟨hb, hlt⟩ := hinv.closed _ hb' s hs _ hd
    exact ⟨hb, hlt.trans hlt'⟩

theorem filterMap_lookup_names (servers : List Server) :
    ∀ l : List String, (∀ n ∈ l, ∃ s, map_server_names servers n = some s) →
      (l.filterMap (map_server_names servers)).map Server.name = l := by
  intro l
  induction l with
  | nil => intro _; simp
  | cons n rest ih =>
    intro h
    obtain ⟨s, hs⟩ := h n (List.mem_cons_self _ _)
    simp only [List.filterMap_cons, hs, List.map_cons]
    rw [(map_server_names_some hs).2,
      ih (fun x hx => h x (List.mem_cons_of_mem _ hx))]

theorem filterMap_lookup_servers (servers : List Server) :
    ∀ l : List Server, (∀ s ∈ l, map_server_names servers s.name = some s) →
      (l.map Server.name).filterMap (map_server_names servers) = l := by
  intro l
  induction l with
  | nil => intro _; simp
  | cons s rest ih =>
    intro h
    simp only [List.map_cons, List.filterMap_cons, h s (List.mem_cons_self _ _)]
    rw [ih (fun x hx => h x (List.mem_cons_of_mem _ hx))]

theorem sort_inv_init (servers : List Server) : SortInv servers ⟨[], [], []⟩ :=
  { nodup := List.nodup_nil
    visited_iff := by intro n; constructor <;> (intro h; exact absurd h (List.not_mem_nil n))
    keys := by intro n hn; exact absurd hn (List.not_mem_nil n)
    closed := by intro n hn; exact absurd hn (List.not_mem_nil n)
    disjoint := by intro n hn; exact absurd hn (List.not_mem_nil n) }

/-- C1: on a configuration with pairwise-distinct names, fully defined
dependencies and an acyclic dependency relation, `determine_wakeup_order`
returns `Ok` with a permutation of the input in which every node appears
after all of its transitive dependencies. -/
theorem determine_wakeup_order_topo (servers : List Server)
    (hnd : (servers.map Server.name).Nodup)
    (hdef : ∀ s ∈ servers, ∀ d ∈ s.depends, ∃ t ∈ servers, t.name = d)
    (hacyc : ∀ a, ¬ Relation.TransGen (dep_step servers) a a) :
    ∃ result, determine_wakeup_order servers = some (Except.ok result) ∧
      result.Perm servers ∧
      ∀ a b, Relation.TransGen (dep_step servers) a b →
        name_index b (result.map Server.name) <
          name_index a (result.map Server.name) := by
  match hseed : wakeup_seed_loop (map_server_names servers)
      (servers.length + 1) servers ⟨[], [], []⟩ with
  | none =>
    exfalso
    have hcard : (servers.map Server.name).toFinset.card < servers.length + 1 := by
      have h1 : (servers.map Server.name).toFinset.card ≤
          (servers.map Server.name).length := List.toFinset_card_le _
      simp only [List.length_map] at h1
      omega
    exact wakeup_seed_loop_ne_none servers (servers.length + 1) servers
      ⟨[], [], []⟩ (fun s hs => hs) rfl hcard hseed
  | some (Except.error e) =>
    exfalso
    cases wakeup_seed_loop_error_kinds (map_server_names servers)
        (servers.length + 1) servers ⟨[], [], []⟩ e hseed with
    | inl hcirc =>
      obtain ⟨m, rfl⟩ := hcirc
      have hcyc := wakeup_seed_loop_circular servers hnd (servers.length + 1)
        servers ⟨[], [], []⟩ m (fun s hs => hs) rfl hseed
      exact hacyc m
        (Relation.TransGen.mono (fun x y hxy => look_step_imp_dep_step hxy) hcyc)
    | inr hund =>
      obtain ⟨d, rfl⟩ := hund
      obtain ⟨hnone, s, hsmem, hdmem⟩ := wakeup_seed_loop_error_undefined servers
        (servers.length + 1) servers ⟨[], [], []⟩ d (fun s hs => hs) hseed
      obtain ⟨t, htmem, htname⟩ := hdef s hsmem d hdmem
      obtain ⟨u, hu⟩ := map_server_names_isSome_iff.mpr ⟨t, htmem, htname⟩
      rw [hnone] at hu
      exact Option.noConfusion hu
  | some (Except.ok st) =>
    obtain ⟨hinv, ⟨t, hsorted⟩, hall⟩ := wakeup_seed_loop_ok_spec servers hnd
      (servers.length + 1) servers ⟨[], [], []⟩ st (fun s hs => hs)
      (sort_inv_init servers) hseed
    have hresult : determine_wakeup_order servers =
        some (Except.ok (st.sorted.filterMap (map_server_names servers))) := by
      rw [determine_wakeup_order]
      simp only [hseed]
    have hsub1 : st.sorted ⊆ servers.map Server.name := by
      intro n hn
      obtain ⟨s, hs⟩ := hinv.keys n hn
      obtain ⟨hm, hname⟩ := map_server_names_some hs
      exact List.mem_map.mpr ⟨s, hm, hname⟩
    have hsub2 : servers.map Server.name ⊆ st.sorted := by
      intro n hn
      obtain ⟨s, hm, rfl⟩ := List.mem_map.mp hn
      exact hall s hm
    have hperm : st.sorted.Perm (servers.map Server.name) :=
      (hinv.nodup.subperm hsub1).antisymm (hnd.subperm hsub2)
    have hnames : (st.sorted.filterMap (map_server_names servers)).map
        Server.name = st.sorted :=
      filterMap_lookup_names servers st.sorted hinv.keys
    have hperm2 : (st.sorted.filterMap (map_server_names servers)).Perm servers := by
      have h1 := hperm.filterMap (map_server_names servers)
      rw [filterMap_lookup_servers servers servers
        (fun s hs => map_server_names_of_mem hnd hs)] at h1
      exact h1
    refine ⟨_, hresult, hperm2, ?_⟩
    intro a b hab
    have hab' : Relation.TransGen (look_step servers) a b :=
      Relation.TransGen.mono (fun x y hxy => dep_step_imp_look_step hnd hxy) hab
    have hamem : a ∈ st.sorted := by
      obtain ⟨c, hac, _⟩ := Relation.TransGen.head'_iff.mp hab'
      obtain ⟨s, hs, _⟩ := hac
      obtain ⟨hm, hname⟩ := map_server_names_some hs
      exact hsub2 (List.mem_map.mpr ⟨s, hm, hname⟩)
    obtain ⟨_, hlt⟩ := sorted_topo servers st hinv a b hab' hamem
    rw [hnames]
    exact hlt

/-- Witness for C1 at a concrete three-node edgeless configuration. -/
theorem determine_wakeup_order_topo_witness :
    ∃ result, determine_wakeup_order
        [plain_server "n1" "cc:cc:cc:cc:cc:01" [],
         plain_server "n2" "cc:cc:cc:cc:cc:02" [],
         plain_server "n3" "cc:cc:cc:cc:cc:03" []] =
        some (Except.ok result) ∧
      result.Perm
        [plain_server "n1" "cc:cc:cc:cc:cc:01" [],
         plain_server "n2" "cc:cc:cc:cc:cc:02" [],
         plain_server "n3" "cc:cc:cc:cc:cc:03" []] ∧
      ∀ a b, Relation.TransGen
          (dep_step
            [plain_server "n1" "cc:cc:cc:cc:cc:01" [],
             plain_server "n2" "cc:cc:cc:cc:cc:02" [],
             plain_server "n3" "cc:cc:cc:cc:cc:03" []]) a b →
        name_index b (result.map Server.name) <
          name_index a (result.map Server.name) := by
  refine determine_wakeup_order_topo _ (by decide) (by decide) ?_
  intro a h
  obtain ⟨c, hac, _⟩ := Relation.TransGen.head'_iff.mp h
  obtain ⟨s, hsmem, _, hdep⟩ := hac
  simp only [plain_server, List.mem_cons, List.not_mem_nil, or_false] at hsmem
  rcases hsmem with rfl | rfl | rfl <;> exact absurd hdep (List.not_mem_nil c)

/-- C2 (amended): on a configuration with pairwise-distinct names and
fully defined dependencies whose dependency relation has a cycle,
`determine_wakeup_order` fails with `CircularDependency`, naming a node
that lies on a cycle; on the concrete 4-cycle A,B,C,D the reported name
is "A". -/
theorem cyclic_reports_circular :
    (∀ servers : List Server,
      (servers.map Server.name).Nodup →
      (∀ s ∈ servers, ∀ d ∈ s.depends, ∃ t ∈ servers, t.name = d) →
      (∃ a, Relation.TransGen (dep_step servers) a a) →
      ∃ n, determine_wakeup_order servers =
          some (Except.error (ServerConfigError.CircularDependency n)) ∧
        Relation.TransGen (dep_step servers) n n) ∧
    determine_wakeup_order cycle_config =
      some (Except.error (ServerConfigError.CircularDependency "A")) := by
  refine ⟨?_, rfl⟩
  intro servers hnd hdef hcyc
  match hseed : wakeup_seed_loop (map_server_names servers)
      (servers.length + 1) servers ⟨[], [], []⟩ with
  | none =>
    exfalso
    have hcard : (servers.map Server.name).toFinset.card < servers.length + 1 := by
      have h1 : (servers.map Server.name).toFinset.card ≤
          (servers.map Server.name).length := List.toFinset_card_le _
      simp only [List.length_map] at h1
      omega
    exact wakeup_seed_loop_ne_none servers (servers.length + 1) servers
      ⟨[], [], []⟩ (fun s hs => hs) rfl hcard hseed
  | some (Except.error e) =>
    cases wakeup_seed_loop_error_kinds (map_server_names servers)
        (servers.length + 1) servers ⟨[], [], []⟩ e hseed with
    | inl hcirc =>
      obtain ⟨m, rfl⟩ := hcirc
      have hcycm := wakeup_seed_loop_circular servers hnd (servers.length + 1)
        servers ⟨[], [], []⟩ m (fun s hs => hs) rfl hseed
      refine ⟨m, ?_, Relation.TransGen.mono
        (fun x y hxy => look_step_imp_dep_step hxy) hcycm⟩
      rw [determine_wakeup_order]
      simp only [hseed]
    | inr hund =>
      exfalso
      obtain ⟨d, rfl⟩ := hund
      obtain ⟨hnone, s, hsmem, hdmem⟩ := wakeup_seed_loop_error_undefined servers
        (servers.length + 1) servers ⟨[], [], []⟩ d (fun s hs => hs) hseed
      obtain ⟨t, htmem, htname⟩ := hdef s hsmem d hdmem
      obtain ⟨u, hu⟩ := map_server_names_isSome_iff.mpr ⟨t, htmem, htname⟩
      rw [hnone] at hu
      exact Option.noConfusion hu
  | some (Except.ok st) =>
    exfalso
    obtain ⟨hinv, _, hall⟩ := wakeup_seed_loop_ok_spec servers hnd
      (servers.length + 1) servers ⟨[], [], []⟩ st (fun s hs => hs)
      (sort_inv_init servers) hseed
    obtain ⟨a, ha⟩ := hcyc
    have ha' : Relation.TransGen (look_step servers) a a :=
      Relation.TransGen.mono (fun x y hxy => dep_step_imp_look_step hnd hxy) ha
    have hamem : a ∈ st.sorted := by
      obtain ⟨c, hac, _⟩ := Relation.TransGen.head'_iff.mp ha'
      obtain ⟨s, hs, _⟩ := hac
      obtain ⟨hm, hname⟩ := map_server_names_some hs
      rw [← hname]
      exact hall s hm
    obtain ⟨_, hlt⟩ := sorted_topo servers st hinv a a ha' hamem
    omega

/-- C2 counterexample: a configuration whose dependency relation has a
cycle (Y names itself) can still report `UndefinedDependency`, not
`CircularDependency`, when the input-order-seeded traversal meets an
undefined name first. -/
theorem cycle_masked_by_undefined :
    (∃ a, Relation.TransGen (dep_step cycle_with_undefined_config) a a) ∧
    determine_wakeup_order cycle_with_undefined_config =
      some (Except.error (ServerConfigError.UndefinedDependency "missing")) ∧
    ∀ n, determine_wakeup_order cycle_with_undefined_config ≠
      some (Except.error (ServerConfigError.CircularDependency n)) := by
  refine ⟨⟨"Y", Relation.TransGen.single (by decide)⟩, rfl, ?_⟩
  intro n h
  rw [show determine_wakeup_order cycle_with_undefined_config =
    some (Except.error (ServerConfigError.UndefinedDependency "missing"))
    from rfl] at h
  simp at h

/-- Witness for C2 at the concrete 4-cycle configuration. -/
theorem cyclic_reports_circular_witness :
    ∃ n, determine_wakeup_order cycle_config =
        some (Except.error (ServerConfigError.CircularDependency n)) ∧
      Relation.TransGen (dep_step cycle_config) n n :=
  cyclic_reports_circular.1 cycle_config (by decide) (by decide)
    ⟨"A",
      Relation.TransGen.head
        (show dep_step cycle_config "A" "B" by decide)
        (Relation.TransGen.head
          (show dep_step cycle_config "B" "C" by decide)
          (Relation.TransGen.head
            (show dep_step cycle_config "C" "D" by decide)
            (Relation.TransGen.single
              (show dep_step cycle_config "D" "A" by decide))))⟩

/-- C6 (amended): on a configuration with pairwise-distinct names whose
dependency relation is acyclic and which contains a dependency name that
matches no node, `determine_wakeup_order` fails with
`UndefinedDependency` carrying such a missing name, and no sorted list is
returned. -/
theorem dangling_reports_undefined (servers : List Server)
    (hnd : (servers.map Server.name).Nodup)
    (hacyc : ∀ a, ¬ Relation.TransGen (dep_step servers) a a)
    (hdangling : ∃ s ∈ servers, ∃ d ∈ s.depends, ∀ t ∈ servers, t.name ≠ d) :
    ∃ d, determine_wakeup_order servers =
        some (Except.error (ServerConfigError.UndefinedDependency d)) ∧
      (∃ s ∈ servers, d ∈ s.depends) ∧ ∀ t ∈ servers, t.name ≠ d := by
  match hseed : wakeup_seed_loop (map_server_names servers)
      (servers.length + 1) servers ⟨[], [], []⟩ with
  | none =>
    exfalso
    have hcard : (servers.map Server.name).toFinset.card < servers.length + 1 := by
      have h1 : (servers.map Server.name).toFinset.card ≤
          (servers.map Server.name).length := List.toFinset_card_le _
      simp only [List.length_map] at h1
      omega
    exact wakeup_seed_loop_ne_none servers (servers.length + 1) servers
      ⟨[], [], []⟩ (fun s hs => hs) rfl hcard hseed
  | some (Except.error e) =>
    cases wakeup_seed_loop_error_kinds (map_server_names servers)
        (servers.length + 1) servers ⟨[], [], []⟩ e hseed with
    | inl hcirc =>
      exfalso
      obtain ⟨m, rfl⟩ := hcirc
      have hcycm := wakeup_seed_loop_circular servers hnd (servers.length + 1)
        servers ⟨[], [], []⟩ m (fun s hs => hs) rfl hseed
      exact hacyc m
        (Relation.TransGen.mono (fun x y hxy => look_step_imp_dep_step hxy) hcycm)
    | inr hund =>
      obtain ⟨d, rfl⟩ := hund
      obtain ⟨hnone, s', hsmem', hdmem'⟩ := wakeup_seed_loop_error_undefined
        servers (servers.length + 1) servers ⟨[], [], []⟩ d
        (fun s hs => hs) hseed
      refine ⟨d, ?_, ⟨s', hsmem', hdmem'⟩, map_server_names_none hnone⟩
      rw [determine_wakeup_order]
      simp only [hseed]
  | some (Except.ok st) =>
    exfalso
    obtain ⟨hinv, _, hall⟩ := wakeup_seed_loop_ok_spec servers hnd
      (servers.length + 1) servers ⟨[], [], []⟩ st (fun s hs => hs)
      (sort_inv_init servers) hseed
    obtain ⟨s, hsmem, d, hdmem, hnoname⟩ := hdangling
    have hslook : map_server_names servers s.name = some s :=
      map_server_names_of_mem hnd hsmem
    obtain ⟨hdin, _⟩ := hinv.closed s.name (hall s hsmem) s hslook d hdmem
    obtain ⟨u, hu⟩ := hinv.keys d hdin
    obtain ⟨humem, huname⟩ := map_server_names_some hu
    exact hnoname u humem huname

/-- C6 counterexample: a configuration containing an undefined dependency
can still report `CircularDependency`, not `UndefinedDependency`, when
the input-order-seeded traversal meets a cycle first. -/
theorem dangling_masked_by_cycle :
    (∃ s ∈ dangling_with_cycle_config, ∃ d ∈ s.depends,
      ∀ t ∈ dangling_with_cycle_config, t.name ≠ d) ∧
    determine_wakeup_order dangling_with_cycle_config =
      some (Except.error (ServerConfigError.CircularDependency "P")) ∧
    ∀ d, determine_wakeup_order dangling_with_cycle_config ≠
      some (Except.error (ServerConfigError.UndefinedDependency d)) := by
  refine ⟨by decide, rfl, ?_⟩
  intro d h
  rw [show determine_wakeup_order dangling_with_cycle_config =
    some (Except.error (ServerConfigError.CircularDependency "P"))
    from rfl] at h
  simp at h

/-- Witness for C6 at a concrete one-node dangling configuration. -/
theorem dangling_reports_undefined_witness :
    ∃ d, determine_wakeup_order dangling_config =
        some (Except.error (ServerConfigError.UndefinedDependency d)) ∧
      (∃ s ∈ dangling_config, d ∈ s.depends) ∧
      ∀ t ∈ dangling_config, t.name ≠ d := by
  refine dangling_reports_undefined dangling_config (by decide) ?_ (by decide)
  intro a h
  have hedge : ∀ x y, dep_step dangling_config x y → x = "W" ∧ y = "nope" := by
    intro x y hxy
    obtain ⟨s, hsm, hn, hd⟩ := hxy
    simp only [dangling_config, plain_server, List.mem_cons, List.not_mem_nil,
      or_false] at hsm
    subst hsm
    simp only [List.mem_cons, List.not_mem_nil, or_false] at hd
    exact ⟨hn.symm, hd⟩
  obtain ⟨b, hab, _⟩ := Relation.TransGen.head'_iff.mp h
  obtain ⟨b2, _, hba⟩ := Relation.TransGen.tail'_iff.mp h
  have h1 : a = "W" := (hedge a b hab).1
  have h2 : a = "nope" := (hedge b2 a hba).2
  rw [h1] at h2
  exact absurd h2 (by decide)

theorem wakeup_seed_loop_no_deps (servers : List Server) (fuel : Nat) :
    ∀ (seeds : List Server) (st : DfsState), 0 < fuel →
      (∀ s ∈ seeds, s.depends = [] ∧ s.name ∉ st.visited ∧ s.name ∉ st.visiting) →
      (seeds.map Server.name).Nodup →
      ∃ fin, wakeup_seed_loop (map_server_names servers) fuel seeds st =
          some (Except.ok fin) ∧
        fin.sorted = st.sorted ++ seeds.map Server.name := by
  intro seeds
  induction seeds with
  | nil =>
    intro st _ _ _
    exact ⟨st, rfl, by simp⟩
  | cons s rest ih =>
    intro st hf hcond hnodup
    obtain ⟨hdeps, hnvtd, hnvis⟩ := hcond s (List.mem_cons_self s rest)
    obtain ⟨m, rfl⟩ : ∃ m, fuel = m + 1 := ⟨fuel - 1, by omega⟩
    simp only [wakeup_seed_loop, if_neg hnvtd]
    rw [depth_first_search, if_neg hnvis, if_neg hnvtd, hdeps]
    simp only [dfs_deps]
    rw [List.erase_cons_head]
    have hnd2 : (∀ x ∈ rest, ¬ x.name = s.name) ∧
        (rest.map Server.name).Nodup := by simpa using hnodup
    obtain ⟨hne, hnodup'⟩ := hnd2
    obtain ⟨fin, hloop, hsorted⟩ := ih
      { visited := s.name :: st.visited, visiting := st.visiting,
        sorted := st.sorted ++ [s.name] }
      hf
      (by
        intro x hx
        obtain ⟨hd, hvtd, hvis⟩ := hcond x (List.mem_cons_of_mem _ hx)
        refine ⟨hd, ?_, hvis⟩
        intro hc
        cases List.mem_cons.mp hc with
        | inl he => exact hne x hx he
        | inr ht => exact hvtd ht)
      hnodup'
    refine ⟨fin, hloop, ?_⟩
    rw [hsorted]
    simp [List.append_assoc]

theorem no_edges_preserves_input_order (servers : List Server)
    (hnd : (servers.map Server.name).Nodup)
    (hdeps : ∀ s ∈ servers, s.depends = []) :
    determine_wakeup_order servers = some (Except.ok servers) := by
  rw [determine_wakeup_order]
  obtain ⟨fin, hloop, hsorted⟩ := wakeup_seed_loop_no_deps servers
    (servers.length + 1) servers ⟨[], [], []⟩ (by omega)
    (fun s hs => ⟨hdeps s hs, by simp, by simp⟩) hnd
  simp only [hloop]
  rw [hsorted]
  simp only [List.nil_append]
  rw [filterMap_lookup_servers servers servers
    (fun s hs => map_server_names_of_mem hnd hs)]

/-- C8: the resolver's output order is the deterministic
input-order-seeded depth-first order: with no edges the input order is
preserved exactly (stated for any three pairwise-distinctly-named
dependency-free nodes), and the concrete chain example yields exactly
[server_c, server_b, server_a]. -/
theorem resolver_order_deterministic :
    (∀ s1 s2 s3 : Server, s1.depends = [] → s2.depends = [] → s3.depends = [] →
      s1.name ≠ s2.name → s1.name ≠ s3.name → s2.name ≠ s3.name →
      determine_wakeup_order [s1, s2, s3] = some (Except.ok [s1, s2, s3])) ∧
    determine_wakeup_order chain_config =
      some (Except.ok
        [plain_server "server_c" "22:33:44:55:66:77" [],
         plain_server "server_b" "11:22:33:44:55:66" ["server_c"],
         plain_server "server_a" "00:11:22:33:44:55" ["server_b", "server_c"]]) := by
  refine ⟨?_, rfl⟩
  intro s1 s2 s3 h1 h2 h3 h12 h13 h23
  refine no_edges_preserves_input_order _ ?_ ?_
  · simp [List.nodup_cons, h12, h13, h23]
  · intro s hs
    simp only [List.mem_cons, List.not_mem_nil, or_false] at hs
    rcases hs with rfl | rfl | rfl
    · exact h1
    · exact h2
    · exact h3

theorem resolver_order_deterministic_witness :
    determine_wakeup_order
        [plain_server "a" "dd:dd:dd:dd:dd:01" [],
         plain_server "b" "dd:dd:dd:dd:dd:02" [],
         plain_server "c" "dd:dd:dd:dd:dd:03" []] =
      some (Except.ok
        [plain_server "a" "dd:dd:dd:dd:dd:01" [],
         plain_server "b" "dd:dd:dd:dd:dd:02" [],
         plain_server "c" "dd:dd:dd:dd:dd:03" []]) :=
  resolver_order_deterministic.1 _ _ _ rfl rfl rfl (by decide) (by decide)
    (by decide)


end Wakeup
